import Mathlib

/-!
Verification development for the twitter_scrap repository.

The development shallowly embeds the response-reconciliation and
thread-assembly pipeline of the repository:

* `src/mega_parse.py` — `parse_twitter_date` and the five phases of
  `mega_parse` (merge batches, overlay thread files, group by thread id,
  resolve roots, final sort).
* `src/api_xscrap.py` — `extract_tweet_data`, `parse_response` and
  `parse_tweet_detail`, both as a typed model over the expected response
  shape and as a dynamic model over arbitrary JSON values that tracks
  Python's exception flow.

Machine-level detail that matters here: Python's `datetime.strptime` with
`%z` produces a timezone-aware datetime while the fallback `datetime.min`
is naive, and ordering comparisons between the two raise `TypeError`.
Sorting is therefore modeled in an `Except` monad: a comparison between a
parsed timestamp and the sentinel is an error, exactly as in CPython.
-/

set_option maxHeartbeats 1000000

namespace TwitterScrap

/-! ## Python truthiness -/

/-- Truthiness of an optional string field: Python's `None` and `""` are falsy. -/
def truthy : Option String → Bool
  | none => false
  | some s => s ≠ ""

/-! ## Date parsing (`parse_twitter_date`, src/mega_parse.py lines 7-15)

`datetime.strptime(s, "%a %b %d %H:%M:%S %z %Y")` is modeled by a direct
implementation of that fixed format.  A successfully parsed (timezone-aware)
value is represented as `some n` where `n` is the UTC instant in seconds on
a proleptic-Gregorian day count; the naive sentinel `datetime.min` returned
for a missing or unparsable string is represented as `none`.  The model
fixes the conventional capitalization of the weekday/month abbreviations
and the `±HHMM` offset form actually present in the scraped data. -/

/-- Month abbreviation to month number, as accepted by `%b`. -/
def monthNum (s : String) : Option Nat :=
  if s = "Jan" then some 1 else if s = "Feb" then some 2
  else if s = "Mar" then some 3 else if s = "Apr" then some 4
  else if s = "May" then some 5 else if s = "Jun" then some 6
  else if s = "Jul" then some 7 else if s = "Aug" then some 8
  else if s = "Sep" then some 9 else if s = "Oct" then some 10
  else if s = "Nov" then some 11 else if s = "Dec" then some 12
  else none

/-- Weekday abbreviations accepted by `%a` (strptime does not check
consistency of the weekday with the date, and neither does the model). -/
def weekdayOk (s : String) : Bool :=
  ["Mon", "Tue", "Wed", "Thu", "Fri", "Sat", "Sun"].contains s

/-- Gregorian leap-year test. -/
def isLeap (y : Nat) : Bool :=
  (y % 4 = 0 && y % 100 ≠ 0) || y % 400 = 0

/-- Number of days in a month. -/
def daysInMonth (y m : Nat) : Nat :=
  if m = 2 then (if isLeap y then 29 else 28)
  else if m = 4 ∨ m = 6 ∨ m = 9 ∨ m = 11 then 30
  else 31

/-- Split a character list at every occurrence of a separator, like the
tokenization of the fixed strptime format at its literal separators. -/
def splitChar (sep : Char) : List Char → List (List Char)
  | [] => [[]]
  | c :: cs =>
      let rest := splitChar sep cs
      if c = sep then [] :: rest
      else
        match rest with
        | [] => [[c]]
        | r :: rs => (c :: r) :: rs

/-- Numeric value of a digit sequence. -/
def digitsVal (cs : List Char) : Nat :=
  cs.foldl (fun n c => n * 10 + (c.toNat - 48)) 0

/-- A number written with between `lo` and `hi` digits, as matched by the
strptime directives `%d`, `%H`, `%M`, `%S` (1-2 digits) and `%Y` (1-4). -/
def fixedNat (lo hi : Nat) (cs : List Char) : Option Nat :=
  if lo ≤ cs.length ∧ cs.length ≤ hi ∧ cs.all Char.isDigit then
    some (digitsVal cs)
  else none

/-- Timezone offset in minutes for the `±HHMM` form matched by `%z`;
`datetime.timezone` requires the offset to be strictly within one day. -/
def tzOffsetMinutes (cs : List Char) : Option Int :=
  match cs with
  | [sign, h1, h2, m1, m2] =>
    if (sign = '+' ∨ sign = '-') ∧ [h1, h2, m1, m2].all Char.isDigit then
      let hh := (h1.toNat - 48) * 10 + (h2.toNat - 48)
      let mm := (m1.toNat - 48) * 10 + (m2.toNat - 48)
      if mm ≤ 59 ∧ hh * 60 + mm < 1440 then
        some (if sign = '+' then (hh * 60 + mm : Int) else -(hh * 60 + mm : Int))
      else none
    else none
  | _ => none

/-- Day count of a proleptic-Gregorian date (years ≥ 1), monotone in the
date; standard days-from-civil computation. -/
def daysFromCivil (y m d : Nat) : Nat :=
  let y' := y - (if m ≤ 2 then 1 else 0)
  let era := y' / 400
  let yoe := y' % 400
  let mp := if m > 2 then m - 3 else m + 9
  let doy := (153 * mp + 2) / 5 + (d - 1)
  let doe := yoe * 365 + yoe / 4 - yoe / 100 + doy
  era * 146097 + doe

/-- Model of `parse_twitter_date` (src/mega_parse.py lines 7-15): `none`
is the naive `datetime.min` sentinel (missing, empty or unparsable input),
`some n` the aware parsed instant, `n` in seconds UTC. -/
def parse_twitter_date : Option String → Option Int
  | none => none
  | some s =>
    if s = "" then none
    else
      match splitChar ' ' s.toList with
      | [wd, mon, dayS, timeS, tzS, yearS] =>
        (do
          guard (weekdayOk (String.mk wd))
          let m ← monthNum (String.mk mon)
          let d ← fixedNat 1 2 dayS
          let hms ← match splitChar ':' timeS with
            | [hS, miS, sS] => do
                let h ← fixedNat 1 2 hS
                let mi ← fixedNat 1 2 miS
                let sec ← fixedNat 1 2 sS
                pure (h, mi, sec)
            | _ => none
          let off ← tzOffsetMinutes tzS
          let y ← fixedNat 1 4 yearS
          guard (1 ≤ y ∧ y ≤ 9999 ∧ 1 ≤ d ∧ d ≤ daysInMonth y m ∧
                 hms.1 ≤ 23 ∧ hms.2.1 ≤ 59 ∧ hms.2.2 ≤ 59)
          pure ((daysFromCivil y m d : Int) * 86400 +
                hms.1 * 3600 + hms.2.1 * 60 + hms.2.2 - off * 60))
      | _ => none

/-! ## The post record

The record shape produced by `extract_tweet_data` (src/api_xscrap.py lines
218-238), restricted to the fields that `mega_parse` and the properties
below read: `id`, `thread_id`, `created_at`, `is_thread`, `is_pinned`, and
`full_text` as the representative of the payload carried through
unchanged.  The author, metrics and media sub-objects are carried opaquely
by `mega_parse` and do not influence any property below; the dynamic model
later in this file covers the full extraction function. -/

structure Tweet where
  id : Option String := none
  thread_id : Option String := none
  created_at : Option String := none
  full_text : Option String := none
  is_thread : Bool := false
  is_pinned : Bool := false
deriving DecidableEq, Repr

/-- A record of the final corpus: the underlying dict plus the `thread`
key that phase 4 of `mega_parse` may add (`none` = key absent). -/
structure OutTweet where
  base : Tweet
  thread : Option (List Tweet) := none
deriving DecidableEq, Repr

/-! ## Phases 1-2 of `mega_parse`: the `all_tweets` dict (lines 20-64)

A Python dict is modeled as an association list in insertion order:
assigning to an existing key updates the value in place, a new key is
appended.  Iteration order of `.values()` and of `defaultdict` matches
this insertion order, which the final phases observe through stable
sorting. -/

abbrev TweetMap := List (String × Tweet)

/-- Python dict assignment `m[k] = v`. -/
def dictInsert (m : TweetMap) (k : String) (v : Tweet) : TweetMap :=
  if m.any (fun p => p.1 == k) then
    m.map (fun p => if p.1 == k then (k, v) else p)
  else m ++ [(k, v)]

/-- One iteration of the load loops: `tid = tweet.get('id'); if tid:
all_tweets[tid] = tweet` (lines 31-33 and 52-60). -/
def insertTweet (m : TweetMap) (t : Tweet) : TweetMap :=
  match t.id with
  | some s => if s = "" then m else dictInsert m s t
  | none => m

/-- Load one unit's record list into the dict. -/
def insertTweets (m : TweetMap) (ts : List Tweet) : TweetMap :=
  ts.foldl insertTweet m

/-- Thread-file defaulting (lines 55-57): if the record has no truthy
`thread_id`, set it from the filename-derived thread id and mark
`is_thread`. -/
def defaultThread (fileTid : String) (t : Tweet) : Tweet :=
  if truthy t.thread_id then t
  else { t with thread_id := some fileTid, is_thread := true }

/-- Records of one `thread_<id>_full.json` unit after defaulting. -/
def processThreadUnit (fileTid : String) (ts : List Tweet) : List Tweet :=
  ts.map (defaultThread fileTid)

/-- Phases 1-2: insert every timeline-batch record, then overlay every
thread-detail record unconditionally (lines 26-62).  A thread unit is a
pair of its filename-derived thread id and its record list. -/
def buildAllTweets (batches : List (List Tweet))
    (threads : List (String × List Tweet)) : TweetMap :=
  threads.foldl (fun m u => insertTweets m (processThreadUnit u.1 u.2))
    (batches.foldl insertTweets [])

/-! ## Phase 3: grouping by thread id (lines 66-78) -/

abbrev Groups := List (String × List Tweet)

/-- `thread_groups[thread_id].append(tweet)` on a `defaultdict(list)`. -/
def addToGroup (g : Groups) (k : String) (t : Tweet) : Groups :=
  if g.any (fun p => p.1 == k) then
    g.map (fun p => if p.1 == k then (p.1, p.2 ++ [t]) else p)
  else g ++ [(k, [t])]

/-- Partition the dict values into standalone records (no truthy
`thread_id`) and thread groups, in iteration order. -/
def splitStandalone (values : List Tweet) : List Tweet × Groups :=
  values.foldl
    (fun acc t =>
      match t.thread_id with
      | some s => if s = "" then (acc.1 ++ [t], acc.2) else (acc.1, addToGroup acc.2 s t)
      | none => (acc.1 ++ [t], acc.2))
    ([], [])

/-! ## Python `list.sort` on datetime keys

`list.sort(key=...)` is a stable sort whose element comparisons use `<`
on the keys; comparing the naive sentinel with an aware parsed datetime
raises `TypeError`.  `pyLt` is that partial comparison and the sort is a
stable insertion sort in the `Except` monad: it errors exactly on lists
mixing sentinel and parsed keys, as CPython does. -/

/-- Python `<` on the two kinds of datetime key; mixed naive/aware raises. -/
def pyLt : Option Int → Option Int → Except Unit Bool
  | none, none => .ok false
  | some a, some b => .ok (decide (a < b))
  | _, _ => .error ()

/-- Sort key of a record: `parse_twitter_date(x.get('created_at'))`. -/
def dateKey (t : Tweet) : Option Int := parse_twitter_date t.created_at

/-- Insert an element into an already sorted list, placing it after every
element it is not strictly less than (stable). -/
def insertSortedE (lt : α → α → Except Unit Bool) (a : α) :
    List α → Except Unit (List α)
  | [] => .ok [a]
  | b :: l => do
      if (← lt a b) then pure (a :: b :: l)
      else pure (b :: (← insertSortedE lt a l))

/-- Stable sort by successive insertion; models the result and the
failure condition of Python's stable `list.sort`. -/
def sortE (lt : α → α → Except Unit Bool) (l : List α) : Except Unit (List α) :=
  l.foldlM (fun acc a => insertSortedE lt a acc) []

/-- Ascending comparison used by the per-group sort (line 85). -/
def ltAsc (a b : Tweet) : Except Unit Bool := pyLt (dateKey a) (dateKey b)

/-- Sort key of a corpus record. -/
def outKey (o : OutTweet) : Option Int := dateKey o.base

/-- Descending comparison used by the final sort (line 107,
`reverse=True`): strictly-greater keys move forward, stable on ties. -/
def ltDesc (a b : OutTweet) : Except Unit Bool := pyLt (outKey b) (outKey a)

/-! ## Phase 4: root resolution (lines 83-104) -/

/-- Process one thread group: sort ascending by date, look for the member
whose id equals the group's thread id; nest the rest under it if found,
otherwise emit every member individually. -/
def processBucket (tid : String) (group : List Tweet) :
    Except Unit (List OutTweet) := do
  let sorted ← sortE ltAsc group
  match sorted.find? (fun t => t.id == some tid) with
  | some root =>
      pure [⟨root, some (sorted.filter (fun t => !(t.id == some tid)))⟩]
  | none => pure (sorted.map (fun t => ⟨t, none⟩))

/-- Phase 4 over all groups in iteration order, appending each group's
records to the standalone list. -/
def processGroups (groups : Groups) : Except Unit (List OutTweet) :=
  groups.foldlM (fun acc p => do pure (acc ++ (← processBucket p.1 p.2))) []

/-! ## The whole of `mega_parse` (file I/O elided)

Input: the loaded timeline-batch units in enumeration order, and the
loaded thread-detail units (filename-derived thread id with record list)
in enumeration order.  Output: the final corpus, or the `TypeError` that
one of the sorts raises. -/

def megaParse (batches : List (List Tweet))
    (threads : List (String × List Tweet)) : Except Unit (List OutTweet) := do
  let m := buildAllTweets batches threads
  let values := m.map Prod.snd
  let split := splitStandalone values
  let fromGroups ← processGroups split.2
  sortE ltDesc (split.1.map (fun t => ⟨t, none⟩) ++ fromGroups)

/-! ## Derived views used to state the properties -/

/-- Association-list lookup (the dict's key → value function). -/
def alookup (m : List (String × α)) (k : String) : Option α :=
  (m.find? (fun p => p.1 == k)).map Prod.snd

/-- The processed record stream: all batch records in order, then all
thread records (after defaulting) in order — the exact order in which
`mega_parse` performs its dict assignments. -/
def streamOf (batches : List (List Tweet))
    (threads : List (String × List Tweet)) : List Tweet :=
  batches.flatten ++ (threads.map (fun u => processThreadUnit u.1 u.2)).flatten

/-- The processed thread-detail record stream alone. -/
def threadStream (threads : List (String × List Tweet)) : List Tweet :=
  (threads.map (fun u => processThreadUnit u.1 u.2)).flatten

/-- The last record with the given id in a stream (the winner of
last-write-wins). -/
def lastWithId (l : List Tweet) (t : String) : Option Tweet :=
  (l.filter (fun r => r.id == some t)).getLast?

/-- The dict values in iteration order. -/
def valuesOf (batches : List (List Tweet))
    (threads : List (String × List Tweet)) : List Tweet :=
  (buildAllTweets batches threads).map Prod.snd

/-- The thread groups formed in phase 3. -/
def groupsOf (values : List Tweet) : Groups :=
  (splitStandalone values).2

/-- Invariant of the grouping fold over a consumed prefix `c`: keys are
truthy, distinct, and each bucket is exactly the consumed records with
that thread id, in order. -/
def groupInv (c : List Tweet) (g : Groups) : Prop :=
  (∀ p ∈ g, p.1 ≠ "" ∧ p.2 = c.filter (fun t => t.thread_id == some p.1)) ∧
  (g.map Prod.fst).Nodup ∧
  (∀ tid : String, tid ∈ g.map Prod.fst ↔
    (tid ≠ "" ∧ ∃ t ∈ c, t.thread_id = some tid))

/-- Non-strict comparison on keys of one kind (both sentinel or both
parsed); holds between consecutive elements of a successfully sorted
ascending list. -/
def leK : Option Int → Option Int → Bool
  | none, none => true
  | some a, some b => decide (a ≤ b)
  | _, _ => false

/-- The per-group sort postcondition: ascending `createdAt`. -/
def ascSorted (l : List Tweet) : Prop :=
  l.Pairwise (fun a b => leK (dateKey a) (dateKey b))

/-- The final sort postcondition: descending `createdAt`. -/
def descSorted (l : List OutTweet) : Prop :=
  l.Pairwise (fun a b => leK (outKey b) (outKey a))

/-! ## Typed model of the timeline parser (src/api_xscrap.py)

This model types the GraphQL response shape that `parse_response` walks.
Every `.get(k, {})` default is represented by an `Option` or a structure
default, so the model captures the behavior of the source on responses of
the expected shape; the dynamic model further below covers arbitrary
values and the exception flow. -/

/-- The `legacy` content block of a tweet result, restricted as in `Tweet`. -/
structure Legacy where
  id_str : Option String := none
  created_at : Option String := none
  full_text : Option String := none
deriving DecidableEq, Repr

/-- The fields of a (possibly unwrapped) tweet object that the parser
reads; an absent or empty `legacy` block is `none` (both are falsy at
`if not legacy`). -/
structure TweetFields where
  legacy : Option Legacy := none
deriving DecidableEq, Repr

/-- A `tweet_results.result` object: possibly a `TweetWithVisibilityResults`
wrapper, whose inner `tweet` object defaults to empty when missing. -/
structure TweetResult where
  isVisibilityWrapped : Bool := false
  tweet : TweetFields := {}
  fields : TweetFields := {}
deriving DecidableEq, Repr

/-- The one-level unwrap of lines 177-179: use the inner `tweet` object
when the result is a visibility wrapper. -/
def effectiveFields (r : TweetResult) : TweetFields :=
  if r.isVisibilityWrapped then r.tweet else r.fields

/-- Model of `extract_tweet_data` (src/api_xscrap.py lines 172-238) on the
typed shape: require the `legacy` block, else `None`; assemble the record
with `is_thread = bool(thread_id)`. -/
def extract_tweet_data (r : TweetResult) (threadId : Option String) : Option Tweet :=
  match (effectiveFields r).legacy with
  | none => none
  | some l =>
      some { id := l.id_str, thread_id := threadId, created_at := l.created_at,
             full_text := l.full_text, is_thread := truthy threadId,
             is_pinned := false }

/-- Extraction applied to a possibly-missing result object (a missing or
empty `result` dict is falsy, and an empty dict also has no `legacy`). -/
def extractOpt (r : Option TweetResult) (threadId : Option String) : Option Tweet :=
  r.bind (fun x => extract_tweet_data x threadId)

/-- One item of a conversation module:
`item.item.itemContent.tweet_results.result`. -/
structure ModuleItem where
  result : Option TweetResult := none
deriving DecidableEq, Repr

/-- A `TimelineTimelineModule` entry: its items and the server-declared
`metadata.conversationMetadata.allTweetIds`. -/
structure ConversationModule where
  items : List ModuleItem := []
  allTweetIds : List String := []
deriving DecidableEq, Repr

/-- A timeline entry as classified by `content.entryType`. -/
inductive Entry where
  | item (result : Option TweetResult)
  | module (m : ConversationModule)
  | other
deriving DecidableEq, Repr

/-- A timeline instruction as classified by `instruction.type`. -/
inductive Instruction where
  | pin (result : Option TweetResult)
  | addEntries (entries : List Entry)
  | other
deriving DecidableEq, Repr

/-- A timeline response; `none` models every early-return case where the
`data`/`user`/`result`/`timeline` containers are missing (lines 246-261). -/
structure TimelineResponse where
  instructions : Option (List Instruction) := none
deriving DecidableEq, Repr

/-- Thread-id resolution for a module (lines 302-309): the first item's
result, unwrapped once, read at `legacy.id_str`; `None` when the module
has no items or the chain has a gap. -/
def resolveRootId (m : ConversationModule) : Option String :=
  match m.items with
  | [] => none
  | first :: _ =>
      match first.result with
      | none => none
      | some r => (effectiveFields r).legacy.bind (fun l => l.id_str)

/-- Records contributed by one module (lines 317-323): every item is
extracted with the module's resolved thread id (possibly `None`). -/
def moduleRecords (m : ConversationModule) : List Tweet :=
  m.items.filterMap (fun i => extractOpt i.result (resolveRootId m))

/-- Incomplete-thread ids contributed by one module (lines 311-315):
the resolved root id when fewer items are present than declared and the
id is truthy. -/
def moduleIncomplete (m : ConversationModule) : List String :=
  match resolveRootId m with
  | some t =>
      if m.items.length < m.allTweetIds.length ∧ t ≠ "" then [t] else []
  | none => []

/-- Componentwise concatenation of (records, incomplete ids) outputs. -/
def joinOuts (l : List (List Tweet × List String)) : List Tweet × List String :=
  ((l.map Prod.fst).flatten, (l.map Prod.snd).flatten)

/-- Output of one timeline entry (lines 282-323). -/
def entryOut : Entry → List Tweet × List String
  | .item r => ((extractOpt r none).toList, [])
  | .module m => (moduleRecords m, moduleIncomplete m)
  | .other => ([], [])

/-- Output of one instruction (lines 265-323): a pinned entry's record is
marked `is_pinned`; an add-entries instruction emits its entries' outputs
in order. -/
def instrOut : Instruction → List Tweet × List String
  | .pin r =>
      (match extractOpt r none with
       | some t => [{ t with is_pinned := true }]
       | none => [], [])
  | .addEntries es => joinOuts (es.map entryOut)
  | .other => ([], [])

/-- Model of `parse_response` (lines 240-328) on the typed shape: the pair
of parsed records and incomplete thread ids. -/
def parse_response (resp : TimelineResponse) : List Tweet × List String :=
  match resp.instructions with
  | none => ([], [])
  | some is => joinOuts (is.map instrOut)

/-- Membership of a conversation module in a response's traversal. -/
def moduleMem (m : ConversationModule) (resp : TimelineResponse) : Prop :=
  ∃ es, Instruction.addEntries es ∈ resp.instructions.getD [] ∧ Entry.module m ∈ es

/-! ## Dynamic model: Python values and the parsers' exception flow

`parse_response` and `parse_tweet_detail` wrap their whole entry loop in a
single `try/except` (src/api_xscrap.py lines 245-326 and 333-358): an
exception raised anywhere inside aborts the remaining entries and the
accumulated lists are returned.  To state anything about that flow the
parsers are re-modeled over a type of arbitrary JSON-like Python values,
with `.get`, `in`, indexing, iteration, `len` and `<` raising exactly
where Python raises (`AttributeError`, `KeyError`, `TypeError`, ... are
collapsed into one opaque error). -/

inductive JVal where
  | null
  | bool (b : Bool)
  | num (n : Int)
  | str (s : String)
  | arr (elems : List JVal)
  | obj (fields : List (String × JVal))

/-- Python truthiness of a value. -/
def jTruthy : JVal → Bool
  | .null => false
  | .bool b => b
  | .num n => n ≠ 0
  | .str s => s ≠ ""
  | .arr l => !l.isEmpty
  | .obj fields => !fields.isEmpty

/-- Python `==` against a string literal (never raises). -/
def jEqStr : JVal → String → Bool
  | .str t, s => t == s
  | _, _ => false

/-- `v.get(k, d)`: only dicts have `.get`; anything else raises. -/
def jGetD (v : JVal) (k : String) (d : JVal) : Except Unit JVal :=
  match v with
  | .obj fields =>
      match fields.find? (fun p => p.1 == k) with
      | some p => .ok p.2
      | none => .ok d
  | _ => .error ()

/-- `v.get(k)` with Python's implicit `None` default. -/
def jGet (v : JVal) (k : String) : Except Unit JVal := jGetD v k .null

/-- `v[k]` with a string key: dict lookup (`KeyError` when absent), raises
on every other value. -/
def jIndexStr (v : JVal) (k : String) : Except Unit JVal :=
  match v with
  | .obj fields =>
      match fields.find? (fun p => p.1 == k) with
      | some p => .ok p.2
      | none => .error ()
  | _ => .error ()

/-- `v[0]`: first element of a list, first character of a string, raises
otherwise (including `KeyError` on a string-keyed dict). -/
def jFirst : JVal → Except Unit JVal
  | .arr (x :: _) => .ok x
  | .arr [] => .error ()
  | .str s =>
      match s.toList with
      | c :: _ => .ok (.str c.toString)
      | [] => .error ()
  | _ => .error ()

/-- `for x in v`: list elements, dict keys, string characters; raises
otherwise. -/
def jIter : JVal → Except Unit (List JVal)
  | .arr l => .ok l
  | .obj fields => .ok (fields.map (fun p => JVal.str p.1))
  | .str s => .ok (s.toList.map (fun c => JVal.str c.toString))
  | _ => .error ()

/-- `len(v)`. -/
def jLen : JVal → Except Unit Nat
  | .arr l => .ok l.length
  | .obj fields => .ok fields.length
  | .str s => .ok s.length
  | _ => .error ()

/-- `k in v` for a string `k`: key containment in a dict, membership in a
list, substring of a string; raises otherwise. -/
def jIn (k : String) : JVal → Except Unit Bool
  | .obj fields => .ok (fields.any (fun p => p.1 == k))
  | .arr l => .ok (l.any (fun v => jEqStr v k))
  | .str s => .ok (decide ((s.splitOn k).length ≥ 2))
  | _ => .error ()

/-- `v[k] = x` item assignment: dicts only. -/
def jSet (v : JVal) (k : String) (x : JVal) : Except Unit JVal :=
  match v with
  | .obj fields =>
      if fields.any (fun p => p.1 == k) then
        .ok (.obj (fields.map (fun p => if p.1 == k then (k, x) else p)))
      else .ok (.obj (fields ++ [(k, x)]))
  | _ => .error ()

/-- The numeric view Python's `<` uses (`bool` is an `int`). -/
def jNumVal : JVal → Option Int
  | .num n => some n
  | .bool b => some (if b then 1 else 0)
  | _ => none

/-- Python `<` as used by `max`'s key comparison; raises on unrelated types. -/
def jLtVal (a b : JVal) : Except Unit Bool :=
  match jNumVal a, jNumVal b with
  | some x, some y => .ok (decide (x < y))
  | _, _ =>
      match a, b with
      | .str x, .str y => .ok (decide (x < y))
      | _, _ => .error ()

/-! ### `extract_tweet_data` over dynamic values (lines 172-238) -/

/-- The comprehension `[v for v in variants if v.get('content_type') ==
'video/mp4']`. -/
def filterMp4 : List JVal → Except Unit (List JVal)
  | [] => pure []
  | v :: l => do
      let ct ← jGet v "content_type"
      let rest ← filterMp4 l
      pure (if jEqStr ct "video/mp4" then v :: rest else rest)

/-- Tail of `max(..., key=lambda x: x.get('bitrate', 0))`: keep the first
maximum, replacing only on a strictly greater key. -/
def pyMaxGo (best bestKey : JVal) : List JVal → Except Unit JVal
  | [] => pure best
  | v :: l => do
      let k ← jGetD v "bitrate" (.num 0)
      let gt ← jLtVal bestKey k
      if gt then pyMaxGo v k l else pyMaxGo best bestKey l

/-- `max(candidates, key=lambda x: x.get('bitrate', 0), default=None)`. -/
def pyMaxBitrate : List JVal → Except Unit (Option JVal)
  | [] => pure none
  | v :: l => do
      let k ← jGetD v "bitrate" (.num 0)
      let r ← pyMaxGo v k l
      pure (some r)

/-- The media-extraction loop over `extended_entities['media']`. -/
def mediaOf : List JVal → Except Unit (List JVal)
  | [] => pure []
  | mv :: l => do
      let ty ← jGet mv "type"
      let here ←
        if jEqStr ty "photo" then do
          let u ← jGet mv "media_url_https"
          pure [u]
        else if jEqStr ty "video" then do
          let vi ← jGetD mv "video_info" (.obj [])
          let variants ← jGetD vi "variants" (.arr [])
          let vlist ← jIter variants
          let mp4s ← filterMp4 vlist
          match (← pyMaxBitrate mp4s) with
          | some best =>
              if jTruthy best then do
                let u ← jGet best "url"
                pure [u]
              else pure []
          | none => pure []
        else pure []
      let rest ← mediaOf l
      pure (here ++ rest)

/-- Full dynamic model of `extract_tweet_data`: `none` is Python's `None`
result, an error is a raised exception propagating to the caller. -/
def extractDyn (tweetResult : JVal) (threadId : JVal) : Except Unit (Option JVal) := do
  if !jTruthy tweetResult then pure none
  else do
    let tn ← jGet tweetResult "__typename"
    let tw ← if jEqStr tn "TweetWithVisibilityResults" then
               jGetD tweetResult "tweet" (.obj [])
             else pure tweetResult
    let legacy ← jGet tw "legacy"
    if !jTruthy legacy then pure none
    else do
      let core0 ← jGetD tw "core" (.obj [])
      let ur ← jGetD core0 "user_results" (.obj [])
      let cres ← jGetD ur "result" (.obj [])
      let ctn ← jGet cres "__typename"
      let core ← if jEqStr ctn "UserWithVisibilityResults" then
                   jGetD cres "user" (.obj [])
                 else pure cres
      let userLegacy ← jGetD core "legacy" (.obj [])
      let userCore ← jGetD core "core" (.obj [])
      let userAvatar ← jGetD core "avatar" (.obj [])
      let nmA ← jGet userLegacy "name"
      let name ← if jTruthy nmA then pure nmA else jGet userCore "name"
      let snA ← jGet userLegacy "screen_name"
      let screenName ← if jTruthy snA then pure snA else jGet userCore "screen_name"
      let piA ← jGet userLegacy "profile_image_url_https"
      let profileImage ← if jTruthy piA then pure piA else jGet userAvatar "image_url"
      let ee ← jGetD legacy "extended_entities" (.obj [])
      let hasMedia ← jIn "media" ee
      let mediaUrls ←
        if hasMedia then do
          let mlistV ← jIndexStr ee "media"
          let mlist ← jIter mlistV
          mediaOf mlist
        else pure []
      let idV ← jGet legacy "id_str"
      let caV ← jGet legacy "created_at"
      let ftV ← jGet legacy "full_text"
      let rcV ← jGet legacy "reply_count"
      let rtV ← jGet legacy "retweet_count"
      let fcV ← jGet legacy "favorite_count"
      let qcV ← jGet legacy "quote_count"
      let views ← jGetD tw "views" (.obj [])
      let vcV ← jGet views "count"
      let lgV ← jGet legacy "lang"
      pure (some (.obj [
        ("id", idV),
        ("thread_id", threadId),
        ("created_at", caV),
        ("full_text", ftV),
        ("user", .obj [("name", name), ("screen_name", screenName),
                       ("profile_image_url", profileImage)]),
        ("metrics", .obj [("reply_count", rcV), ("retweet_count", rtV),
                          ("favorite_count", fcV), ("quote_count", qcV),
                          ("view_count", vcV)]),
        ("media", .arr mediaUrls),
        ("lang", lgV),
        ("is_thread", .bool (jTruthy threadId))]))

/-! ### `parse_response` over dynamic values (lines 240-328) -/

/-- Accumulated output: `(parsed_tweets, incomplete_threads)`. -/
abbrev DAcc := List JVal × List JVal

def daEmpty : DAcc := ([], [])

def daAppend (a b : DAcc) : DAcc := (a.1 ++ b.1, a.2 ++ b.2)

def daJoin (l : List DAcc) : DAcc := l.foldr daAppend daEmpty

/-- Run a loop whose body either contributes output or raises; a raise
aborts the remaining iterations, keeping the output so far (the mutable
accumulator survives into the `except` handler). -/
def foldAbort (f : α → DAcc × Bool) : List α → DAcc × Bool
  | [] => (daEmpty, false)
  | x :: l =>
      let r := f x
      if r.2 then r
      else
        let rest := foldAbort f l
        (daAppend r.1 rest.1, rest.2)

/-- Interpret an atomic body: an exception contributes nothing and aborts. -/
def exAcc (e : Except Unit DAcc) : DAcc × Bool :=
  match e with
  | .ok a => (a, false)
  | .error _ => (daEmpty, true)

/-- One module item (lines 317-323): navigate to the result, extract with
the module's thread id, append the record if any. -/
def processItemDyn (tid : JVal) (item : JVal) : Except Unit DAcc := do
  let it ← jGetD item "item" (.obj [])
  let ic ← jGetD it "itemContent" (.obj [])
  let tr ← jGetD ic "tweet_results" (.obj [])
  let res ← jGetD tr "result" (.obj [])
  match (← extractDyn res tid) with
  | some td => pure ([td], [])
  | none => pure daEmpty

/-- Thread-id determination for a module (lines 302-309). -/
def resolveRootDyn (itemsV : JVal) : Except Unit JVal := do
  if jTruthy itemsV then do
    let firstItem ← jFirst itemsV
    let it ← jGetD firstItem "item" (.obj [])
    let ic ← jGetD it "itemContent" (.obj [])
    let tr ← jGetD ic "tweet_results" (.obj [])
    let res ← jGetD tr "result" (.obj [])
    let tn ← jGet res "__typename"
    let res' ← if jEqStr tn "TweetWithVisibilityResults" then
                 jGetD res "tweet" (.obj [])
               else pure res
    let lg ← jGetD res' "legacy" (.obj [])
    jGet lg "id_str"
  else pure .null

/-- The straight-line prefix of module processing (lines 295-315): items,
metadata, thread id, and the incomplete-thread contribution. -/
def moduleDynPre (content : JVal) : Except Unit (List JVal × JVal × List JVal) := do
  let itemsV ← jGetD content "items" (.arr [])
  let md0 ← jGetD content "metadata" (.obj [])
  let md ← jGetD md0 "conversationMetadata" (.obj [])
  let allIds ← jGetD md "allTweetIds" (.arr [])
  let tid ← resolveRootDyn itemsV
  let nItems ← jLen itemsV
  let nIds ← jLen allIds
  let inc := if nItems < nIds ∧ jTruthy tid then [tid] else []
  let items ← jIter itemsV
  pure (items, tid, inc)

/-- One conversation module (lines 294-323). -/
def moduleDyn (content : JVal) : DAcc × Bool :=
  match moduleDynPre content with
  | .error _ => (daEmpty, true)
  | .ok (items, tid, inc) =>
      let r := foldAbort (fun it => exAcc (processItemDyn tid it)) items
      ((r.1.1, inc ++ r.1.2), r.2)

/-- One timeline entry (lines 282-323). -/
def entryDyn (entry : JVal) : DAcc × Bool :=
  match (do
      let content ← jGetD entry "content" (.obj [])
      let et ← jGet content "entryType"
      pure (content, et) : Except Unit (JVal × JVal)) with
  | .error _ => (daEmpty, true)
  | .ok (content, et) =>
      if jEqStr et "TimelineTimelineItem" then
        exAcc (do
          let ic ← jGetD content "itemContent" (.obj [])
          let tr ← jGetD ic "tweet_results" (.obj [])
          let res ← jGetD tr "result" (.obj [])
          match (← extractDyn res .null) with
          | some td => pure ([td], ([] : List JVal))
          | none => pure daEmpty)
      else if jEqStr et "TimelineTimelineModule" then moduleDyn content
      else (daEmpty, false)

/-- One instruction (lines 265-323). -/
def instrDyn (inst : JVal) : DAcc × Bool :=
  match jGet inst "type" with
  | .error _ => (daEmpty, true)
  | .ok ty =>
      if jEqStr ty "TimelinePinEntry" then
        exAcc (do
          let entry ← jGetD inst "entry" (.obj [])
          let content ← jGetD entry "content" (.obj [])
          let ic ← jGetD content "itemContent" (.obj [])
          let tr ← jGetD ic "tweet_results" (.obj [])
          let res ← jGetD tr "result" (.obj [])
          match (← extractDyn res .null) with
          | some td => do
              let td' ← jSet td "is_pinned" (.bool true)
              pure ([td'], ([] : List JVal))
          | none => pure daEmpty)
      else if jEqStr ty "TimelineAddEntries" then
        match (do
            let entriesV ← jGetD inst "entries" (.arr [])
            jIter entriesV : Except Unit (List JVal)) with
        | .error _ => (daEmpty, true)
        | .ok es => foldAbort entryDyn es
      else (daEmpty, false)

/-- The straight-line prefix of `parse_response` (lines 246-263), with the
early `return [], []` cases as `none`. -/
def parseRespPre (j : JVal) : Except Unit (Option (List JVal)) := do
  let data ← jGetD j "data" (.obj [])
  if !jTruthy data then pure none
  else do
    let user ← jGetD data "user" (.obj [])
    let result ← jGetD user "result" (.obj [])
    let tlObj0 ← jGetD result "timeline" (.obj [])
    let tlObj ← if !jTruthy tlObj0 then jGetD result "timeline_v2" (.obj [])
                else pure tlObj0
    let timeline ← jGetD tlObj "timeline" (.obj [])
    if !jTruthy timeline then pure none
    else do
      let instrsV ← jGetD timeline "instructions" (.arr [])
      let is ← jIter instrsV
      pure (some is)

/-- Full dynamic model of `parse_response`: the returned pair plus whether
the surrounding `except` handler fired (aborting the rest of the
response); the function itself never raises. -/
def parseResponseDyn (j : JVal) : DAcc × Bool :=
  match parseRespPre j with
  | .error _ => (daEmpty, true)
  | .ok none => (daEmpty, false)
  | .ok (some is) => foldAbort instrDyn is

/-! ### `parse_tweet_detail` over dynamic values (lines 330-360) -/

/-- One entry of the detail response (lines 340-357). -/
def detailEntryDyn (entry : JVal) : DAcc × Bool :=
  match (do
      let content ← jGetD entry "content" (.obj [])
      let et ← jGet content "entryType"
      pure (content, et) : Except Unit (JVal × JVal)) with
  | .error _ => (daEmpty, true)
  | .ok (content, et) =>
      if jEqStr et "TimelineTimelineItem" then
        exAcc (do
          let ic ← jGetD content "itemContent" (.obj [])
          let tr ← jGetD ic "tweet_results" (.obj [])
          let res ← jGetD tr "result" (.obj [])
          match (← extractDyn res .null) with
          | some td => pure ([td], ([] : List JVal))
          | none => pure daEmpty)
      else if jEqStr et "TimelineTimelineModule" then
        match (do
            let itemsV ← jGetD content "items" (.arr [])
            jIter itemsV : Except Unit (List JVal)) with
        | .error _ => (daEmpty, true)
        | .ok items => foldAbort (fun it => exAcc (processItemDyn .null it)) items
      else (daEmpty, false)

/-- One instruction of the detail response (lines 337-357). -/
def detailInstrDyn (inst : JVal) : DAcc × Bool :=
  match jGet inst "type" with
  | .error _ => (daEmpty, true)
  | .ok ty =>
      if jEqStr ty "TimelineAddEntries" then
        match (do
            let ev ← jGetD inst "entries" (.arr [])
            jIter ev : Except Unit (List JVal)) with
        | .error _ => (daEmpty, true)
        | .ok es => foldAbort detailEntryDyn es
      else (daEmpty, false)

/-- The straight-line prefix of `parse_tweet_detail` (lines 334-335). -/
def parseDetailPre (j : JVal) : Except Unit (List JVal) := do
  let data ← jGetD j "data" (.obj [])
  let tc ← jGetD data "threaded_conversation_with_injections_v2" (.obj [])
  let instrsV ← jGetD tc "instructions" (.arr [])
  jIter instrsV

/-- Full dynamic model of `parse_tweet_detail`: the record list plus
whether the `except` handler fired; the function itself never raises. -/
def parseTweetDetailDyn (j : JVal) : List JVal × Bool :=
  match parseDetailPre j with
  | .error _ => ([], true)
  | .ok is =>
      let r := foldAbort detailInstrDyn is
      (r.1.1, r.2)

/-! ### Response builders used in the statements below -/

/-- A timeline response whose single instruction carries the given
entries. -/
def mkTimelineResponse (es : List JVal) : JVal :=
  .obj [("data", .obj [("user", .obj [("result", .obj [("timeline",
    .obj [("timeline", .obj [("instructions",
      .arr [.obj [("type", .str "TimelineAddEntries"),
                  ("entries", .arr es)]])])])])])])]

/-- A thread-detail response whose single instruction carries the given
entries. -/
def mkDetailResponse (es : List JVal) : JVal :=
  .obj [("data", .obj [("threaded_conversation_with_injections_v2",
    .obj [("instructions",
      .arr [.obj [("type", .str "TimelineAddEntries"),
                  ("entries", .arr es)]])])])]

/-! # Lemmas

## The dict build: lookup is last-write-wins over the record stream -/

theorem find_map_replace_self (m : TweetMap) (k : String) (v : Tweet) :
    (m.map (fun p => if p.1 == k then (k, v) else p)).find? (fun p => p.1 == k) =
      (m.find? (fun p => p.1 == k)).map (fun _ => (k, v)) := by
  induction m with
  | nil => rfl
  | cons p m ih =>
      by_cases h : p.1 = k
      · have ht : (p.1 == k) = true := by simpa using h
        simp only [List.map_cons, ht, if_true, List.find?_cons, beq_self_eq_true,
          Option.map_some']
      · have hf : (p.1 == k) = false := by simpa using h
        simp only [List.map_cons, hf, Bool.false_eq_true, if_false, List.find?_cons, ih]

theorem find_map_replace_other (m : TweetMap) (k : String) (v : Tweet)
    (t : String) (hne : t ≠ k) :
    (m.map (fun p => if p.1 == k then (k, v) else p)).find? (fun p => p.1 == t) =
      m.find? (fun p => p.1 == t) := by
  induction m with
  | nil => rfl
  | cons p m ih =>
      by_cases h : p.1 = k
      · have ht : (p.1 == k) = true := by simpa using h
        have h1 : (k == t) = false := by simpa using fun hc => hne hc.symm
        have h2 : (p.1 == t) = false := by
          rw [h]; exact h1
        simp only [List.map_cons, ht, if_true, List.find?_cons, h1, h2,
          Bool.false_eq_true, ih]
      · have hf : (p.1 == k) = false := by simpa using h
        by_cases h' : p.1 = t
        · have ht' : (p.1 == t) = true := by simpa using h'
          simp only [List.map_cons, hf, Bool.false_eq_true, if_false,
            List.find?_cons, ht']
        · have hf' : (p.1 == t) = false := by simpa using h'
          simp only [List.map_cons, hf, Bool.false_eq_true, if_false,
            List.find?_cons, hf', ih]

theorem alookup_dictInsert (m : TweetMap) (k : String) (v : Tweet) (t : String) :
    alookup (dictInsert m k v) t = if k = t then some v else alookup m t := by
  unfold dictInsert alookup
  by_cases hk : m.any (fun p => p.1 == k)
  · simp only [hk, if_true]
    by_cases hkt : k = t
    · subst hkt
      rw [find_map_replace_self]
      cases hq : m.find? (fun p => p.1 == k) with
      | none =>
          rcases List.any_eq_true.mp hk with ⟨p, hp, hpk⟩
          exact absurd hpk (by simpa using List.find?_eq_none.mp hq p hp)
      | some q => simp
    · rw [find_map_replace_other m k v t (fun h => hkt h.symm)]
      simp [hkt]
  · simp only [hk, Bool.false_eq_true, if_false]
    by_cases hkt : k = t
    · subst hkt
      have hnone : m.find? (fun p => p.1 == k) = none := by
        apply List.find?_eq_none.mpr
        intro p hp hc
        exact hk (List.any_eq_true.mpr ⟨p, hp, hc⟩)
      rw [List.find?_append, hnone]
      simp [List.find?_cons]
    · rw [List.find?_append]
      have h1 : (([(k, v)] : TweetMap).find? (fun p => p.1 == t)) = none := by
        have : (k == t) = false := by simpa using hkt
        simp [List.find?_cons, this]
      rw [h1, Option.or_none]
      simp [hkt]

theorem alookup_insertTweet (m : TweetMap) (x : Tweet) (t : String) (ht : t ≠ "") :
    alookup (insertTweet m x) t =
      if x.id == some t then some x else alookup m t := by
  unfold insertTweet
  cases hx : x.id with
  | none => simp
  | some s =>
      dsimp only
      by_cases hs : s = ""
      · subst hs
        have h0 : (some "" == some t) = false := by
          simpa using fun h => ht h.symm
        simp [h0]
      · rw [if_neg hs, alookup_dictInsert]
        by_cases hst : s = t
        · subst hst; simp
        · have h0 : (some s == some t) = false := by simpa using hst
          simp [hst, h0]

theorem getLast?_cons_or (a : α) (l : List α) :
    (a :: l).getLast? = l.getLast?.or (some a) := by
  cases l with
  | nil => rfl
  | cons b l =>
      rw [List.getLast?_cons_cons]
      rcases Option.isSome_iff_exists.mp
          (List.getLast?_isSome.mpr (List.cons_ne_nil b l)) with ⟨c, hc⟩
      simp [hc]

theorem lastWithId_cons (x : Tweet) (l : List Tweet) (t : String) :
    lastWithId (x :: l) t =
      (lastWithId l t).or (if x.id == some t then some x else none) := by
  unfold lastWithId
  by_cases hx : x.id == some t
  · simp [List.filter_cons, hx, getLast?_cons_or]
  · simp [List.filter_cons, hx]

theorem alookup_foldl_insertTweet (l : List Tweet) :
    ∀ (m : TweetMap) (t : String), t ≠ "" →
      alookup (l.foldl insertTweet m) t = (lastWithId l t).or (alookup m t) := by
  induction l with
  | nil => intro m t ht; simp [lastWithId]
  | cons x l ih =>
      intro m t ht
      rw [List.foldl_cons, ih _ _ ht, alookup_insertTweet _ _ _ ht, lastWithId_cons]
      by_cases hx : x.id == some t
      · simp [hx, Option.or_assoc]
      · simp [hx]

theorem insertTweets_eq_foldl (m : TweetMap) (ts : List Tweet) :
    insertTweets m ts = ts.foldl insertTweet m := rfl

theorem foldl_insertTweets_flatten (L : List (List Tweet)) :
    ∀ m : TweetMap, L.foldl insertTweets m = L.flatten.foldl insertTweet m := by
  induction L with
  | nil => intro m; rfl
  | cons l L ih =>
      intro m
      rw [List.foldl_cons, ih, List.flatten_cons, List.foldl_append]
      rfl

theorem buildAllTweets_eq_stream_foldl (bs : List (List Tweet))
    (ths : List (String × List Tweet)) :
    buildAllTweets bs ths = (streamOf bs ths).foldl insertTweet [] := by
  unfold buildAllTweets streamOf
  rw [List.foldl_append, ← foldl_insertTweets_flatten, ← foldl_insertTweets_flatten]
  rw [← List.foldl_map (fun u : String × List Tweet => processThreadUnit u.1 u.2)
        (fun m ts => insertTweets m ts)]

theorem alookup_buildAllTweets (bs : List (List Tweet))
    (ths : List (String × List Tweet)) (t : String) (ht : t ≠ "") :
    alookup (buildAllTweets bs ths) t = lastWithId (streamOf bs ths) t := by
  rw [buildAllTweets_eq_stream_foldl, alookup_foldl_insertTweet _ _ _ ht]
  cases h : lastWithId (streamOf bs ths) t <;> simp [alookup, h]

theorem mem_dictInsert {p : String × Tweet} {m : TweetMap} {k : String} {v : Tweet}
    (h : p ∈ dictInsert m k v) : p ∈ m ∨ p = (k, v) := by
  unfold dictInsert at h
  by_cases hk : m.any (fun q => q.1 == k)
  · rw [if_pos hk] at h
    rcases List.mem_map.mp h with ⟨q, hq, hqe⟩
    by_cases hqk : q.1 == k
    · right; rw [← hqe, if_pos hqk]
    · left; rw [← hqe, if_neg hqk]; exact hq
  · rw [if_neg hk] at h
    rcases List.mem_append.mp h with h | h
    · exact Or.inl h
    · right; simpa using h

theorem mem_insertTweet {p : String × Tweet} {m : TweetMap} {x : Tweet}
    (h : p ∈ insertTweet m x) :
    p ∈ m ∨ ∃ s, x.id = some s ∧ s ≠ "" ∧ p = (s, x) := by
  cases hx : x.id with
  | none => simp only [insertTweet, hx] at h; exact Or.inl h
  | some s =>
      simp only [insertTweet, hx] at h
      by_cases hs : s = ""
      · rw [if_pos hs] at h; exact Or.inl h
      · rw [if_neg hs] at h
        rcases mem_dictInsert h with h | h
        · exact Or.inl h
        · exact Or.inr ⟨s, by simp [hx], hs, h⟩

theorem foldl_insertTweet_inv (P : String × Tweet → Prop)
    (hP : ∀ x s, x.id = some s → s ≠ "" → P (s, x)) :
    ∀ (l : List Tweet) (m : TweetMap), (∀ p ∈ m, P p) →
      ∀ p ∈ l.foldl insertTweet m, P p := by
  intro l
  induction l with
  | nil => intro m hm p hp; exact hm p hp
  | cons x l ih =>
      intro m hm p hp
      refine ih _ ?_ p hp
      intro q hq
      rcases mem_insertTweet hq with hq | ⟨s, hs1, hs2, rfl⟩
      · exact hm q hq
      · exact hP x s hs1 hs2

theorem build_inv (bs : List (List Tweet)) (ths : List (String × List Tweet)) :
    ∀ p ∈ buildAllTweets bs ths, p.2.id = some p.1 ∧ p.1 ≠ "" := by
  rw [buildAllTweets_eq_stream_foldl]
  exact foldl_insertTweet_inv _ (fun x s h1 h2 => ⟨h1, h2⟩) _ [] (by simp)

theorem foldl_insertTweet_mem :
    ∀ (l : List Tweet) (m : TweetMap) (p : String × Tweet),
      p ∈ l.foldl insertTweet m → p ∈ m ∨ p.2 ∈ l := by
  intro l
  induction l with
  | nil => intro m p hp; exact Or.inl hp
  | cons x l ih =>
      intro m p hp
      rcases ih _ _ hp with h | h
      · rcases mem_insertTweet h with h | ⟨s, _, _, rfl⟩
        · exact Or.inl h
        · exact Or.inr (List.mem_cons_self _ _)
      · exact Or.inr (List.mem_cons_of_mem _ h)

theorem values_subset_stream (bs : List (List Tweet))
    (ths : List (String × List Tweet)) :
    ∀ v ∈ valuesOf bs ths, v ∈ streamOf bs ths := by
  intro v hv
  rcases List.mem_map.mp hv with ⟨p, hp, rfl⟩
  rw [buildAllTweets_eq_stream_foldl] at hp
  rcases foldl_insertTweet_mem _ _ _ hp with h | h
  · simp at h
  · exact h

theorem keys_dictInsert_replace (m : TweetMap) (k : String) (v : Tweet)
    (hk : m.any (fun p => p.1 == k)) :
    (dictInsert m k v).map Prod.fst = m.map Prod.fst := by
  unfold dictInsert
  rw [if_pos hk, List.map_map]
  apply List.map_congr_left
  intro p _
  by_cases h : p.1 == k
  · have hpk : p.1 = k := by simpa using h
    simp [h, hpk]
  · have hpk : ¬ p.1 = k := by simpa using h
    simp [h, hpk]

theorem keys_nodup_insertTweet (m : TweetMap) (x : Tweet)
    (h : (m.map Prod.fst).Nodup) : ((insertTweet m x).map Prod.fst).Nodup := by
  cases hx : x.id with
  | none => simpa only [insertTweet, hx] using h
  | some s =>
      simp only [insertTweet, hx]
      by_cases hs : s = ""
      · rw [if_pos hs]; exact h
      · rw [if_neg hs]
        by_cases hk : m.any (fun p => p.1 == s)
        · rw [keys_dictInsert_replace m s x hk]; exact h
        · unfold dictInsert
          rw [if_neg hk, List.map_append]
          have hs' : s ∉ m.map Prod.fst := by
            intro hmem
            rcases List.mem_map.mp hmem with ⟨p, hp, hps⟩
            exact hk (List.any_eq_true.mpr ⟨p, hp, by simp [hps]⟩)
          simp [List.nodup_append, h, hs']

theorem foldl_keys_nodup :
    ∀ (l : List Tweet) (m : TweetMap), (m.map Prod.fst).Nodup →
      ((l.foldl insertTweet m).map Prod.fst).Nodup := by
  intro l
  induction l with
  | nil => intro m hm; exact hm
  | cons x l ih => intro m hm; exact ih _ (keys_nodup_insertTweet m x hm)

theorem build_keys_nodup (bs : List (List Tweet))
    (ths : List (String × List Tweet)) :
    ((buildAllTweets bs ths).map Prod.fst).Nodup := by
  rw [buildAllTweets_eq_stream_foldl]
  exact foldl_keys_nodup _ [] (by simp)

theorem alookup_of_mem :
    ∀ {m : TweetMap}, (m.map Prod.fst).Nodup →
      ∀ {k : String} {v : Tweet}, (k, v) ∈ m → alookup m k = some v := by
  intro m
  induction m with
  | nil => intro _ k v h; simp at h
  | cons p m ih =>
      intro hnd k v h
      rw [List.map_cons, List.nodup_cons] at hnd
      rcases List.mem_cons.mp h with rfl | h
      · simp [alookup, List.find?_cons]
      · have hk : k ∈ m.map Prod.fst := List.mem_map.mpr ⟨(k, v), h, rfl⟩
        have hpk : (p.1 == k) = false := by
          simp only [beq_eq_false_iff_ne, ne_eq]
          intro he
          rw [he] at hnd
          exact hnd.1 hk
        simp only [alookup, List.find?_cons, hpk, Bool.false_eq_true]
        exact ih hnd.2 h

theorem lastWithId_of_mem_values (bs : List (List Tweet))
    (ths : List (String × List Tweet)) {v : Tweet} {t : String}
    (hv : v ∈ valuesOf bs ths) (hid : v.id = some t) (ht : t ≠ "") :
    lastWithId (streamOf bs ths) t = some v := by
  rcases List.mem_map.mp hv with ⟨p, hp, hpe⟩
  have hinv := build_inv bs ths p hp
  have hpt : p.1 = t := by
    rw [hpe] at hinv
    rw [hinv.1] at hid
    exact Option.some.inj hid
  rw [← alookup_buildAllTweets bs ths t ht]
  have hmem : (t, v) ∈ buildAllTweets bs ths := by
    have : p = (t, v) := by
      rcases p with ⟨a, b⟩
      simp only at hpt hpe
      rw [hpt, hpe]
    rw [← this]
    exact hp
  exact alookup_of_mem (build_keys_nodup bs ths) hmem

theorem values_nodup (bs : List (List Tweet))
    (ths : List (String × List Tweet)) : (valuesOf bs ths).Nodup := by
  have hpairs : (buildAllTweets bs ths).Nodup :=
    (build_keys_nodup bs ths).of_map Prod.fst
  refine hpairs.map_on ?_
  intro p hp q hq hpq
  have hip := build_inv bs ths p hp
  have hiq := build_inv bs ths q hq
  have : p.1 = q.1 := by
    have := hip.1
    rw [hpq, hiq.1] at this
    exact (Option.some.inj this).symm
  rcases p with ⟨a, b⟩; rcases q with ⟨c, d⟩
  simp only at hpq this
  rw [this, hpq]

/-! ## The sort: permutation, sortedness, totality, rigidity -/

theorem exc_bind_ok (a : α) (f : α → Except Unit β) :
    (Except.ok a : Except Unit α) >>= f = f a := rfl

theorem exc_bind_error (e : Unit) (f : α → Except Unit β) :
    (Except.error e : Except Unit α) >>= f = Except.error e := rfl

theorem exc_pure (a : α) : (pure a : Except Unit α) = Except.ok a := rfl

theorem insertSortedE_perm {lt : α → α → Except Unit Bool} (a : α) :
    ∀ (l r : List α), insertSortedE lt a l = .ok r → r.Perm (a :: l) := by
  intro l
  induction l with
  | nil =>
      intro r h
      simp only [insertSortedE] at h
      rw [← Except.ok.inj h]
  | cons b l ih =>
      intro r h
      simp only [insertSortedE] at h
      cases hl : lt a b with
      | error e => rw [hl, exc_bind_error] at h; exact Except.noConfusion h
      | ok c =>
          rw [hl, exc_bind_ok] at h
          cases c with
          | true =>
              rw [if_pos rfl, exc_pure] at h
              rw [← Except.ok.inj h]
          | false =>
              rw [if_neg (by simp)] at h
              cases hr : insertSortedE lt a l with
              | error e => rw [hr, exc_bind_error] at h; exact Except.noConfusion h
              | ok r' =>
                  rw [hr, exc_bind_ok, exc_pure] at h
                  rw [← Except.ok.inj h]
                  exact (List.Perm.cons b (ih r' hr)).trans (List.Perm.swap a b l)

theorem foldlM_insert_perm {lt : α → α → Except Unit Bool} :
    ∀ (l acc s : List α),
      List.foldlM (fun acc a => insertSortedE lt a acc) acc l = .ok s →
      s.Perm (acc ++ l) := by
  intro l
  induction l with
  | nil =>
      intro acc s h
      simp only [List.foldlM] at h
      rw [← Except.ok.inj h]
      simp
  | cons a l ih =>
      intro acc s h
      simp only [List.foldlM] at h
      cases ha : insertSortedE lt a acc with
      | error e => rw [ha, exc_bind_error] at h; exact Except.noConfusion h
      | ok acc' =>
          rw [ha, exc_bind_ok] at h
          have h1 : s.Perm (acc' ++ l) := ih acc' s h
          have h2 : acc'.Perm (a :: acc) := insertSortedE_perm a acc acc' ha
          exact (h1.trans (h2.append_right l)).trans List.perm_middle.symm

theorem sortE_perm {lt : α → α → Except Unit Bool} {l s : List α}
    (h : sortE lt l = .ok s) : s.Perm l := by
  have := @foldlM_insert_perm _ lt l [] s h
  simpa using this

theorem insertSortedE_pairwise {lt : α → α → Except Unit Bool} {le : α → α → Prop}
    (H1 : ∀ a b, lt a b = .ok true → le a b)
    (H2 : ∀ a b, lt a b = .ok false → le b a)
    (H3 : Transitive le) (a : α) :
    ∀ (l r : List α), l.Pairwise le → insertSortedE lt a l = .ok r →
      r.Pairwise le := by
  intro l
  induction l with
  | nil =>
      intro r _ h
      simp only [insertSortedE] at h
      rw [← Except.ok.inj h]
      simp
  | cons b l ih =>
      intro r hp h
      simp only [insertSortedE] at h
      rcases List.pairwise_cons.mp hp with ⟨hb, hl⟩
      cases hl' : lt a b with
      | error e => rw [hl', exc_bind_error] at h; exact Except.noConfusion h
      | ok c =>
          rw [hl', exc_bind_ok] at h
          cases c with
          | true =>
              rw [if_pos rfl, exc_pure] at h
              rw [← Except.ok.inj h]
              have hab : le a b := H1 a b hl'
              refine List.pairwise_cons.mpr ⟨?_, hp⟩
              intro x hx
              rcases List.mem_cons.mp hx with rfl | hx
              · exact hab
              · exact H3 hab (hb x hx)
          | false =>
              rw [if_neg (by simp)] at h
              cases hr : insertSortedE lt a l with
              | error e => rw [hr, exc_bind_error] at h; exact Except.noConfusion h
              | ok r' =>
                  rw [hr, exc_bind_ok, exc_pure] at h
                  rw [← Except.ok.inj h]
                  refine List.pairwise_cons.mpr ⟨?_, ih r' hl hr⟩
                  intro x hx
                  have hx' : x ∈ a :: l :=
                    (insertSortedE_perm a l r' hr).mem_iff.mp hx
                  rcases List.mem_cons.mp hx' with rfl | hx'
                  · exact H2 _ _ hl'
                  · exact hb x hx'

theorem foldlM_insert_pairwise {lt : α → α → Except Unit Bool} {le : α → α → Prop}
    (H1 : ∀ a b, lt a b = .ok true → le a b)
    (H2 : ∀ a b, lt a b = .ok false → le b a)
    (H3 : Transitive le) :
    ∀ (l acc s : List α), acc.Pairwise le →
      List.foldlM (fun acc a => insertSortedE lt a acc) acc l = .ok s →
      s.Pairwise le := by
  intro l
  induction l with
  | nil =>
      intro acc s hacc h
      simp only [List.foldlM] at h
      rw [← Except.ok.inj h]
      exact hacc
  | cons a l ih =>
      intro acc s hacc h
      simp only [List.foldlM] at h
      cases ha : insertSortedE lt a acc with
      | error e => rw [ha, exc_bind_error] at h; exact Except.noConfusion h
      | ok acc' =>
          rw [ha, exc_bind_ok] at h
          exact ih acc' s (insertSortedE_pairwise H1 H2 H3 a acc acc' hacc ha) h

theorem sortE_pairwise {lt : α → α → Except Unit Bool} {le : α → α → Prop}
    (H1 : ∀ a b, lt a b = .ok true → le a b)
    (H2 : ∀ a b, lt a b = .ok false → le b a)
    (H3 : Transitive le) {l s : List α} (h : sortE lt l = .ok s) :
    s.Pairwise le :=
  foldlM_insert_pairwise H1 H2 H3 l [] s (by simp) h

theorem insertSortedE_total {lt : α → α → Except Unit Bool} (a : α) :
    ∀ (l : List α), (∀ b ∈ l, ∃ c, lt a b = .ok c) →
      ∃ r, insertSortedE lt a l = .ok r := by
  intro l
  induction l with
  | nil => intro _; exact ⟨[a], rfl⟩
  | cons b l ih =>
      intro hc
      rcases hc b (List.mem_cons_self b l) with ⟨c, hb⟩
      rcases ih (fun x hx => hc x (List.mem_cons_of_mem b hx)) with ⟨r', hr'⟩
      cases c with
      | true =>
          refine ⟨a :: b :: l, ?_⟩
          simp only [insertSortedE]
          rw [hb, exc_bind_ok, if_pos rfl, exc_pure]
      | false =>
          refine ⟨b :: r', ?_⟩
          simp only [insertSortedE]
          rw [hb, exc_bind_ok, if_neg (by simp), hr', exc_bind_ok, exc_pure]

theorem foldlM_insert_total {lt : α → α → Except Unit Bool} :
    ∀ (l acc : List α),
      (∀ a b, a ∈ acc ++ l → b ∈ acc ++ l → ∃ c, lt a b = .ok c) →
      ∃ s, List.foldlM (fun acc a => insertSortedE lt a acc) acc l = .ok s := by
  intro l
  induction l with
  | nil => intro acc _; exact ⟨acc, rfl⟩
  | cons a l ih =>
      intro acc hc
      have ha : a ∈ acc ++ a :: l := by simp
      rcases insertSortedE_total a acc
          (fun b hb => hc a b ha (by simp [hb])) with ⟨acc', hacc'⟩
      have hsub : ∀ x ∈ acc' ++ l, x ∈ acc ++ a :: l := by
        intro x hx
        rcases List.mem_append.mp hx with hx | hx
        · have := (insertSortedE_perm a acc acc' hacc').mem_iff.mp hx
          rcases List.mem_cons.mp this with rfl | hx'
          · simp
          · simp [hx']
        · simp [hx]
      rcases ih acc' (fun x y hx hy => hc x y (hsub x hx) (hsub y hy)) with ⟨s, hs⟩
      refine ⟨s, ?_⟩
      simp only [List.foldlM]
      rw [hacc', exc_bind_ok]
      exact hs

theorem sortE_total {lt : α → α → Except Unit Bool} (l : List α)
    (hc : ∀ a b, a ∈ l → b ∈ l → ∃ c, lt a b = .ok c) :
    ∃ s, sortE lt l = .ok s :=
  foldlM_insert_total l [] (by simpa using hc)

theorem pairwise_perm_eq {le : α → α → Prop} :
    ∀ (l₁ l₂ : List α), l₁.Perm l₂ → l₁.Pairwise le → l₂.Pairwise le →
      (∀ x ∈ l₁, ∀ y ∈ l₁, le x y → le y x → x = y) → l₁ = l₂ := by
  intro l₁
  induction l₁ with
  | nil => intro l₂ hp _ _ _; rw [hp.nil_eq]
  | cons a t₁ ih =>
      intro l₂ hp hp₁ hp₂ hanti
      cases l₂ with
      | nil => exact absurd hp.symm.nil_eq (by simp)
      | cons b t₂ =>
          have hab : a = b := by
            by_contra hne
            have hb₁ : b ∈ a :: t₁ := hp.symm.subset (List.mem_cons_self b t₂)
            have hbt : b ∈ t₁ := by
              rcases List.mem_cons.mp hb₁ with h | h
              · exact absurd h.symm hne
              · exact h
            have ha₂ : a ∈ b :: t₂ := hp.subset (List.mem_cons_self a t₁)
            have hat : a ∈ t₂ := by
              rcases List.mem_cons.mp ha₂ with h | h
              · exact absurd h hne
              · exact h
            have h₁ : le a b := (List.pairwise_cons.mp hp₁).1 b hbt
            have h₂ : le b a := (List.pairwise_cons.mp hp₂).1 a hat
            exact hne (hanti a (List.mem_cons_self a t₁) b hb₁ h₁ h₂)
          subst hab
          have ht : t₁.Perm t₂ := hp.cons_inv
          have : t₁ = t₂ :=
            ih t₂ ht (List.pairwise_cons.mp hp₁).2 (List.pairwise_cons.mp hp₂).2
              (fun x hx y hy => hanti x (List.mem_cons_of_mem a hx) y
                (List.mem_cons_of_mem a hy))
          rw [this]

theorem sortE_eq_of_perm {lt : α → α → Except Unit Bool} {le : α → α → Prop}
    (H1 : ∀ a b, lt a b = .ok true → le a b)
    (H2 : ∀ a b, lt a b = .ok false → le b a)
    (H3 : Transitive le) {l₁ l₂ s₁ s₂ : List α}
    (hp : l₁.Perm l₂) (h₁ : sortE lt l₁ = .ok s₁) (h₂ : sortE lt l₂ = .ok s₂)
    (hanti : ∀ x ∈ l₁, ∀ y ∈ l₁, le x y → le y x → x = y) : s₁ = s₂ := by
  have hs : s₁.Perm s₂ :=
    ((sortE_perm h₁).trans hp).trans (sortE_perm h₂).symm
  refine pairwise_perm_eq s₁ s₂ hs (sortE_pairwise H1 H2 H3 h₁)
    (sortE_pairwise H1 H2 H3 h₂) ?_
  intro x hx y hy
  exact hanti x ((sortE_perm h₁).subset hx) y ((sortE_perm h₁).subset hy)

/-! ## Phase 3: the partition and the groups -/

theorem splitStandalone_append_singleton (values : List Tweet) (t : Tweet) :
    splitStandalone (values ++ [t]) =
      (match t.thread_id with
       | some s =>
           if s = "" then ((splitStandalone values).1 ++ [t], (splitStandalone values).2)
           else ((splitStandalone values).1, addToGroup (splitStandalone values).2 s t)
       | none => ((splitStandalone values).1 ++ [t], (splitStandalone values).2)) := by
  unfold splitStandalone
  rw [List.foldl_append]
  rfl

theorem splitStandalone_fst (values : List Tweet) :
    (splitStandalone values).1 = values.filter (fun t => !truthy t.thread_id) := by
  induction values using List.reverseRecOn with
  | nil => rfl
  | append_singleton l t ih =>
      rw [splitStandalone_append_singleton, List.filter_append]
      cases htid : t.thread_id with
      | none =>
          dsimp only
          rw [ih]
          simp [truthy, htid, List.filter]
      | some s =>
          by_cases hs : s = ""
          · subst hs
            dsimp only
            rw [if_pos rfl, ih]
            simp [truthy, htid, List.filter]
          · dsimp only
            rw [if_neg hs, ih]
            simp [truthy, htid, hs, List.filter]

theorem groupInv_nil : groupInv [] [] := by
  refine ⟨by simp, by simp, ?_⟩
  intro tid
  simp

theorem groupInv_standalone {c : List Tweet} {g : Groups} (hg : groupInv c g)
    (t : Tweet) (ht : ¬ truthy t.thread_id) : groupInv (c ++ [t]) g := by
  obtain ⟨ha, hb, hc⟩ := hg
  refine ⟨?_, hb, ?_⟩
  · intro p hp
    obtain ⟨h1, h2⟩ := ha p hp
    refine ⟨h1, ?_⟩
    rw [List.filter_append, h2]
    have hf : (t.thread_id == some p.1) = false := by
      cases htid : t.thread_id with
      | none => rfl
      | some s =>
          have hse : s = "" := by
            by_contra hne
            exact ht (by simp [truthy, htid, hne])
          subst hse
          simpa using fun hh => h1 hh.symm
    simp [List.filter, hf]
  · intro tid
    rw [hc tid]
    constructor
    · rintro ⟨h1, t', ht', h2⟩
      exact ⟨h1, t', by simp [ht'], h2⟩
    · rintro ⟨h1, t', ht', h2⟩
      rcases List.mem_append.mp ht' with h | h
      · exact ⟨h1, t', h, h2⟩
      · exfalso
        rw [List.mem_singleton] at h
        subst h
        exact ht (by simp [truthy, h2, h1])

theorem groupInv_add {c : List Tweet} {g : Groups} (hg : groupInv c g)
    (t : Tweet) (s : String) (htid : t.thread_id = some s) (hs : s ≠ "") :
    groupInv (c ++ [t]) (addToGroup g s t) := by
  obtain ⟨ha, hb, hc⟩ := hg
  unfold addToGroup
  by_cases hk : g.any (fun p => p.1 == s)
  · rw [if_pos hk]
    have hkeys : (g.map (fun p => if p.1 == s then (p.1, p.2 ++ [t]) else p)).map
        Prod.fst = g.map Prod.fst := by
      rw [List.map_map]
      apply List.map_congr_left
      intro p _
      by_cases h : p.1 = s
      · simp [h]
      · simp [h]
    have hsin : s ∈ g.map Prod.fst := by
      rcases List.any_eq_true.mp hk with ⟨p, hp, hps⟩
      have : p.1 = s := by simpa using hps
      exact this ▸ List.mem_map.mpr ⟨p, hp, rfl⟩
    refine ⟨?_, ?_, ?_⟩
    · intro p' hp'
      rcases List.mem_map.mp hp' with ⟨p, hp, hpe⟩
      obtain ⟨h1, h2⟩ := ha p hp
      by_cases hps : p.1 == s
      · have hps' : p.1 = s := by simpa using hps
        rw [← hpe, if_pos hps]
        refine ⟨h1, ?_⟩
        dsimp only
        rw [List.filter_append, h2]
        have : (t.thread_id == some p.1) = true := by simp [htid, hps']
        simp [List.filter, this]
      · rw [← hpe, if_neg hps]
        refine ⟨h1, ?_⟩
        rw [List.filter_append, h2]
        have hf : (t.thread_id == some p.1) = false := by
          simp only [htid, beq_eq_false_iff_ne, ne_eq, Option.some.injEq]
          intro hh
          exact absurd (by simp [hh] : (p.1 == s) = true) hps
        simp [List.filter, hf]
    · rw [hkeys]; exact hb
    · intro tid
      rw [hkeys, hc tid]
      constructor
      · rintro ⟨h1, t', ht', h2⟩
        exact ⟨h1, t', by simp [ht'], h2⟩
      · rintro ⟨h1, t', ht', h2⟩
        rcases List.mem_append.mp ht' with h | h
        · exact ⟨h1, t', h, h2⟩
        · rw [List.mem_singleton] at h
          subst h
          rw [htid] at h2
          have : s = tid := Option.some.inj h2
          subst this
          -- tid = s is already a key, contradiction-free: rebuild membership
          rw [hc s] at hsin
          exact hsin
  · rw [if_neg hk]
    have hsout : s ∉ g.map Prod.fst := by
      intro hmem
      rcases List.mem_map.mp hmem with ⟨p, hp, hps⟩
      exact hk (List.any_eq_true.mpr ⟨p, hp, by simp [hps]⟩)
    refine ⟨?_, ?_, ?_⟩
    · intro p' hp'
      rcases List.mem_append.mp hp' with hp | hp
      · obtain ⟨h1, h2⟩ := ha p' hp
        refine ⟨h1, ?_⟩
        rw [List.filter_append, h2]
        have hf : (t.thread_id == some p'.1) = false := by
          simp only [htid, beq_eq_false_iff_ne, ne_eq, Option.some.injEq]
          intro hh
          exact hsout (hh ▸ List.mem_map.mpr ⟨p', hp, rfl⟩)
        simp [List.filter, hf]
      · rw [List.mem_singleton] at hp
        subst hp
        refine ⟨hs, ?_⟩
        dsimp only
        have hcf : c.filter (fun x => x.thread_id == some s) = [] := by
          rw [List.filter_eq_nil_iff]
          intro x hx hxs
          have hxs' : x.thread_id = some s := by simpa using hxs
          have : s ∈ g.map Prod.fst := (hc s).mpr ⟨hs, x, hx, hxs'⟩
          exact hsout this
        rw [List.filter_append, hcf]
        simp [List.filter, htid]
    · rw [List.map_append]
      simp only [List.map_cons, List.map_nil]
      rw [List.nodup_append]
      exact ⟨hb, List.nodup_singleton s, by simpa using hsout⟩
    · intro tid
      rw [List.map_append]
      simp only [List.map_cons, List.map_nil]
      rw [List.mem_append, List.mem_singleton, hc tid]
      constructor
      · rintro (⟨h1, t', ht', h2⟩ | rfl)
        · exact ⟨h1, t', by simp [ht'], h2⟩
        · exact ⟨hs, t, by simp, htid⟩
      · rintro ⟨h1, t', ht', h2⟩
        rcases List.mem_append.mp ht' with h | h
        · exact Or.inl ⟨h1, t', h, h2⟩
        · rw [List.mem_singleton] at h
          subst h
          rw [htid] at h2
          exact Or.inr (Option.some.inj h2).symm

theorem groupInv_splitStandalone (values : List Tweet) :
    groupInv values (splitStandalone values).2 := by
  induction values using List.reverseRecOn with
  | nil => exact groupInv_nil
  | append_singleton l t ih =>
      rw [splitStandalone_append_singleton]
      cases htid : t.thread_id with
      | none =>
          dsimp only
          exact groupInv_standalone ih t (by simp [truthy, htid])
      | some s =>
          by_cases hs : s = ""
          · subst hs
            dsimp only
            rw [if_pos rfl]
            exact groupInv_standalone ih t (by simp [truthy, htid])
          · dsimp only
            rw [if_neg hs]
            exact groupInv_add ih t s htid hs

theorem groupsOf_bucket {values : List Tweet} {p : String × List Tweet}
    (hp : p ∈ groupsOf values) :
    p.1 ≠ "" ∧ p.2 = values.filter (fun t => t.thread_id == some p.1) :=
  (groupInv_splitStandalone values).1 p hp

theorem groupsOf_keys_nodup (values : List Tweet) :
    ((groupsOf values).map Prod.fst).Nodup :=
  (groupInv_splitStandalone values).2.1

theorem groupsOf_keys_iff (values : List Tweet) (tid : String) :
    tid ∈ (groupsOf values).map Prod.fst ↔
      (tid ≠ "" ∧ ∃ t ∈ values, t.thread_id = some tid) :=
  (groupInv_splitStandalone values).2.2 tid

/-! ## Phase 4 and the final corpus -/

theorem processBucket_shape {tid : String} {group : List Tweet}
    {b : List OutTweet} (h : processBucket tid group = .ok b) :
    ∃ sorted, sortE ltAsc group = .ok sorted ∧
      ((∃ root, sorted.find? (fun t => t.id == some tid) = some root ∧
          b = [⟨root, some (sorted.filter (fun t => !(t.id == some tid)))⟩]) ∨
       (sorted.find? (fun t => t.id == some tid) = none ∧
          b = sorted.map (fun t => ⟨t, none⟩))) := by
  unfold processBucket at h
  cases hs : sortE ltAsc group with
  | error e => rw [hs, exc_bind_error] at h; exact Except.noConfusion h
  | ok sorted =>
      rw [hs, exc_bind_ok] at h
      refine ⟨sorted, rfl, ?_⟩
      cases hf : sorted.find? (fun t => t.id == some tid) with
      | some root =>
          rw [hf] at h
          dsimp only at h
          rw [exc_pure] at h
          exact Or.inl ⟨root, rfl, (Except.ok.inj h).symm⟩
      | none =>
          rw [hf] at h
          dsimp only at h
          rw [exc_pure] at h
          exact Or.inr ⟨rfl, (Except.ok.inj h).symm⟩

theorem processGroups_aux :
    ∀ (gs : Groups) (acc out : List OutTweet),
      (gs.foldlM (fun acc p => do pure (acc ++ (← processBucket p.1 p.2))) acc)
        = .ok out →
      (∀ x ∈ acc, x ∈ out) ∧
      (∀ p ∈ gs, ∃ b, processBucket p.1 p.2 = .ok b ∧ ∀ x ∈ b, x ∈ out) ∧
      (∀ x ∈ out, x ∈ acc ∨
        ∃ p ∈ gs, ∃ b, processBucket p.1 p.2 = .ok b ∧ x ∈ b) := by
  intro gs
  induction gs with
  | nil =>
      intro acc out h
      simp only [List.foldlM] at h
      rw [← Except.ok.inj h]
      exact ⟨fun x hx => hx, by simp, fun x hx => Or.inl hx⟩
  | cons p gs ih =>
      intro acc out h
      simp only [List.foldlM] at h
      cases hb : processBucket p.1 p.2 with
      | error e => rw [hb, exc_bind_error, exc_bind_error] at h; exact Except.noConfusion h
      | ok b =>
          rw [hb, exc_bind_ok, exc_pure, exc_bind_ok] at h
          obtain ⟨h1, h2, h3⟩ := ih (acc ++ b) out h
          refine ⟨fun x hx => h1 x (List.mem_append.mpr (Or.inl hx)), ?_, ?_⟩
          · intro q hq
            rcases List.mem_cons.mp hq with rfl | hq
            · exact ⟨b, hb, fun x hx => h1 x (List.mem_append.mpr (Or.inr hx))⟩
            · rcases h2 q hq with ⟨b', hb', hsub⟩
              exact ⟨b', hb', hsub⟩
          · intro x hx
            rcases h3 x hx with hx' | ⟨q, hq, b', hb', hxb⟩
            · rcases List.mem_append.mp hx' with hx' | hx'
              · exact Or.inl hx'
              · exact Or.inr ⟨p, List.mem_cons_self p gs, b, hb, hx'⟩
            · exact Or.inr ⟨q, List.mem_cons_of_mem p hq, b', hb', hxb⟩

theorem processGroups_parts {gs : Groups} {out : List OutTweet}
    (h : processGroups gs = .ok out) :
    (∀ p ∈ gs, ∃ b, processBucket p.1 p.2 = .ok b ∧ ∀ x ∈ b, x ∈ out) ∧
    (∀ x ∈ out, ∃ p ∈ gs, ∃ b, processBucket p.1 p.2 = .ok b ∧ x ∈ b) := by
  obtain ⟨_, h2, h3⟩ := processGroups_aux gs [] out h
  refine ⟨h2, ?_⟩
  intro x hx
  rcases h3 x hx with hx' | hx'
  · simp at hx'
  · exact hx'

theorem megaParse_ok_parts {bs : List (List Tweet)}
    {ths : List (String × List Tweet)} {corpus : List OutTweet}
    (h : megaParse bs ths = .ok corpus) :
    ∃ fromGroups,
      processGroups (groupsOf (valuesOf bs ths)) = .ok fromGroups ∧
      sortE ltDesc
        (((splitStandalone (valuesOf bs ths)).1.map (fun t => ⟨t, none⟩))
          ++ fromGroups) = .ok corpus := by
  unfold megaParse at h
  dsimp only at h
  cases hpg : processGroups
      (splitStandalone (List.map Prod.snd (buildAllTweets bs ths))).2 with
  | error e =>
      rw [hpg, exc_bind_error] at h
      exact Except.noConfusion h
  | ok fg =>
      rw [hpg, exc_bind_ok] at h
      exact ⟨fg, hpg, h⟩

theorem corpus_members {bs : List (List Tweet)}
    {ths : List (String × List Tweet)} {corpus : List OutTweet}
    (h : megaParse bs ths = .ok corpus) :
    ∀ o ∈ corpus, o.base ∈ valuesOf bs ths ∧
      ∀ r ∈ o.thread.getD [], r ∈ valuesOf bs ths := by
  obtain ⟨fg, hpg, hsort⟩ := megaParse_ok_parts h
  intro o ho
  have ho0 := (sortE_perm hsort).subset ho
  rcases List.mem_append.mp ho0 with ho0 | ho0
  · rcases List.mem_map.mp ho0 with ⟨t, ht, rfl⟩
    have ht' : t ∈ valuesOf bs ths := by
      rw [splitStandalone_fst] at ht
      exact List.mem_of_mem_filter ht
    exact ⟨ht', by simp⟩
  · rcases (processGroups_parts hpg).2 o ho0 with ⟨p, hp, b, hb, hob⟩
    obtain ⟨sorted, hsorted, hshape⟩ := processBucket_shape hb
    have hgsub : ∀ x ∈ sorted, x ∈ valuesOf bs ths := by
      intro x hx
      have hx' : x ∈ p.2 := (sortE_perm hsorted).subset hx
      have := (groupsOf_bucket hp).2
      rw [this] at hx'
      exact List.mem_of_mem_filter hx'
    rcases hshape with ⟨root, hfind, rfl⟩ | ⟨hfind, rfl⟩
    · rw [List.mem_singleton] at hob
      subst hob
      refine ⟨hgsub root (List.mem_of_find?_eq_some hfind), ?_⟩
      intro r hr
      simp only [Option.getD_some] at hr
      exact hgsub r (List.mem_of_mem_filter hr)
    · rcases List.mem_map.mp hob with ⟨t, ht, rfl⟩
      exact ⟨hgsub t ht, by simp⟩

/-! ## Comparison facts and record-identity helpers -/

theorem pyLt_ok_true {x y : Option Int} (h : pyLt x y = .ok true) :
    leK x y = true := by
  rcases x with _ | a <;> rcases y with _ | b <;> simp only [pyLt] at h
  · exact absurd (Except.ok.inj h) (by simp)
  · exact Except.noConfusion h
  · exact Except.noConfusion h
  · have hab : a < b := by simpa using Except.ok.inj h
    simp [leK]
    exact le_of_lt hab

theorem pyLt_ok_false {x y : Option Int} (h : pyLt x y = .ok false) :
    leK y x = true := by
  rcases x with _ | a <;> rcases y with _ | b <;> simp only [pyLt] at h
  · rfl
  · exact Except.noConfusion h
  · exact Except.noConfusion h
  · have hab : ¬ a < b := by simpa using Except.ok.inj h
    simp [leK]
    exact le_of_not_lt hab

theorem leK_trans : ∀ {x y z : Option Int},
    leK x y = true → leK y z = true → leK x z = true := by
  intro x y z h1 h2
  rcases x with _ | a <;> rcases y with _ | b <;> rcases z with _ | c <;>
    simp [leK] at h1 h2 ⊢
  exact le_trans h1 h2

theorem ltAsc_sorted {l s : List Tweet} (h : sortE ltAsc l = .ok s) :
    ascSorted s := by
  refine @sortE_pairwise _ _ (fun a b => leK (dateKey a) (dateKey b) = true)
      ?_ ?_ ?_ _ _ h
  · intro a b hab; exact pyLt_ok_true hab
  · intro a b hab; exact pyLt_ok_false hab
  · intro a b c h1 h2; exact leK_trans h1 h2

theorem ltDesc_sorted {l s : List OutTweet} (h : sortE ltDesc l = .ok s) :
    descSorted s := by
  refine @sortE_pairwise _ _ (fun a b => leK (outKey b) (outKey a) = true)
      ?_ ?_ ?_ _ _ h
  · intro a b hab; exact pyLt_ok_true hab
  · intro a b hab; exact pyLt_ok_false hab
  · intro a b c h1 h2; exact leK_trans h2 h1

theorem getLast?_append_or (l₁ l₂ : List α) :
    (l₁ ++ l₂).getLast? = l₂.getLast?.or l₁.getLast? := by
  induction l₁ with
  | nil => simp
  | cons a l₁ ih =>
      rw [List.cons_append, getLast?_cons_or, ih, getLast?_cons_or,
        Option.or_assoc]

theorem lastWithId_append (l₁ l₂ : List Tweet) (t : String) :
    lastWithId (l₁ ++ l₂) t = (lastWithId l₂ t).or (lastWithId l₁ t) := by
  unfold lastWithId
  rw [List.filter_append, getLast?_append_or]

theorem values_id_truthy (bs : List (List Tweet))
    (ths : List (String × List Tweet)) :
    ∀ v ∈ valuesOf bs ths, ∃ s, v.id = some s ∧ s ≠ "" := by
  intro v hv
  rcases List.mem_map.mp hv with ⟨p, hp, rfl⟩
  obtain ⟨h1, h2⟩ := build_inv bs ths p hp
  exact ⟨p.1, h1, h2⟩

/-- Every record of the final corpus with a given id is the
last-write-wins winner for that id over the processed record stream. -/
theorem corpus_record_eq_lastWithId {bs : List (List Tweet)}
    {ths : List (String × List Tweet)} {corpus : List OutTweet}
    (h : megaParse bs ths = .ok corpus) {t : String} {rec : Tweet}
    (ht : t ≠ "") (hrec : lastWithId (streamOf bs ths) t = some rec) :
    (∀ o ∈ corpus, o.base.id = some t → o.base = rec) ∧
    (∀ o ∈ corpus, ∀ r ∈ o.thread.getD [], r.id = some t → r = rec) := by
  have hmem := corpus_members h
  constructor
  · intro o ho hid
    have hv := (hmem o ho).1
    have hl := lastWithId_of_mem_values bs ths hv hid ht
    rw [hl] at hrec
    exact Option.some.inj hrec
  · intro o ho r hr hid
    have hv := (hmem o ho).2 r hr
    have hl := lastWithId_of_mem_values bs ths hv hid ht
    rw [hl] at hrec
    exact Option.some.inj hrec

/-! # Claim theorems -/

/-- C3: the claim states the final corpus is always produced sorted by
`createdAt` descending with unparsable timestamps placed after parsable
ones.  The code instead raises `TypeError` on any input mixing a parsable
timestamp (aware datetime) with a missing one (naive `datetime.min`): at
this two-record input the final sort of `mega_parse` crashes and no
corpus exists. -/
theorem c3_final_sort_crashes_on_mixed_timestamps :
    megaParse [[{ id := some "1",
                  created_at := some "Tue Dec 30 19:40:53 +0000 2025" },
                { id := some "2" }]] [] = .error () := rfl

/-- C4: the claim states reconciliation never raises and comparisons with
a missing `createdAt` never crash.  The code crashes: in this thread
bucket of two records, one with a parsable `createdAt` and one without,
the ascending per-group sort compares the naive `datetime.min` sentinel
with an aware parsed datetime and raises `TypeError`. -/
theorem c4_group_sort_crashes_on_mixed_timestamps :
    megaParse []
      [("9", [{ id := some "2",
                created_at := some "Tue Dec 30 19:40:53 +0000 2025" },
              { id := some "3" }])] = .error () := rfl

/-- C5 counterexample: two timeline batch units carrying the same `id`
with differing `full_text`; loading them in the two possible orders
yields different corpora (last loaded batch wins), so reconciliation is
not independent of the unit load order. -/
theorem c5_load_order_counterexample :
    megaParse [[{ id := some "1", full_text := some "a" }],
               [{ id := some "1", full_text := some "b" }]] []
      = .ok [⟨{ id := some "1", full_text := some "b" }, none⟩] ∧
    megaParse [[{ id := some "1", full_text := some "b" }],
               [{ id := some "1", full_text := some "a" }]] []
      = .ok [⟨{ id := some "1", full_text := some "a" }, none⟩] ∧
    (⟨{ id := some "1", full_text := some "b" }, none⟩ : OutTweet) ≠
      ⟨{ id := some "1", full_text := some "a" }, none⟩ :=
  ⟨rfl, rfl, by decide⟩

/-- C9 counterexample: a unit record for id "1" carries `isThread = true`,
but a later timeline batch carries the same id with `isThread = false`;
the merge replaces the record wholesale and the final corpus record has
`isThread = false`, so the flag is not monotonic. -/
theorem c9_is_thread_monotonicity_counterexample :
    megaParse [[{ id := some "1", thread_id := some "1", is_thread := true }],
               [{ id := some "1" }]] []
      = .ok [⟨{ id := some "1" }, none⟩] ∧
    ({ id := some "1", thread_id := some "1", is_thread := true } : Tweet).is_thread
      = true ∧
    (⟨{ id := some "1" }, none⟩ : OutTweet).base.is_thread = false :=
  ⟨rfl, rfl, rfl⟩

/-- C1: thread-detail precedence.  When an id occurs among the
thread-detail units, the record held under that id in the final corpus —
as a top-level record's fields and as a nested thread member — is the
(last) thread-detail-sourced record for that id, regardless of any
timeline batch record with the same id: phases 1-2 insert all timeline
batch records first and then overlay every thread-detail record
unconditionally. -/
theorem c1_thread_detail_precedence
    (bs : List (List Tweet)) (ths : List (String × List Tweet))
    (corpus : List OutTweet) (t : String) (rec : Tweet)
    (h : megaParse bs ths = .ok corpus) (ht : t ≠ "")
    (hrec : lastWithId (threadStream ths) t = some rec) :
    (∀ o ∈ corpus, o.base.id = some t → o.base = rec) ∧
    (∀ o ∈ corpus, ∀ r ∈ o.thread.getD [], r.id = some t → r = rec) := by
  have hstream : lastWithId (streamOf bs ths) t = some rec := by
    unfold streamOf
    rw [lastWithId_append]
    unfold threadStream at hrec
    rw [hrec]
    rfl
  exact corpus_record_eq_lastWithId h ht hstream

/-- Witness for C1 at a concrete input: a timeline record and a
thread-detail record share id "5" with differing text; the corpus keeps
the thread-detail version. -/
theorem c1_thread_detail_precedence_witness :
    (∀ o ∈ [(⟨{ id := some "5", thread_id := some "9",
                full_text := some "detail", is_thread := true }, none⟩ :
              OutTweet)],
      o.base.id = some "5" →
      o.base = { id := some "5", thread_id := some "9",
                 full_text := some "detail", is_thread := true }) ∧
    (∀ o ∈ [(⟨{ id := some "5", thread_id := some "9",
                full_text := some "detail", is_thread := true }, none⟩ :
              OutTweet)],
      ∀ r ∈ o.thread.getD [], r.id = some "5" →
      r = { id := some "5", thread_id := some "9",
            full_text := some "detail", is_thread := true }) :=
  c1_thread_detail_precedence
    [[{ id := some "5", full_text := some "timeline" }]]
    [("9", [{ id := some "5", full_text := some "detail" }])]
    [⟨{ id := some "5", thread_id := some "9",
        full_text := some "detail", is_thread := true }, none⟩]
    "5"
    { id := some "5", thread_id := some "9",
      full_text := some "detail", is_thread := true }
    rfl (by decide) rfl

/-- C9 amended: the corpus record's `isThread` is that of the
last-merged (winning) record for its id — the merge replaces records
wholesale, so the flag follows the winner rather than being monotonic. -/
theorem c9_amended_is_thread_last_write
    (bs : List (List Tweet)) (ths : List (String × List Tweet))
    (corpus : List OutTweet) (t : String) (rec : Tweet)
    (h : megaParse bs ths = .ok corpus) (ht : t ≠ "")
    (hrec : lastWithId (streamOf bs ths) t = some rec) :
    (∀ o ∈ corpus, o.base.id = some t → o.base.is_thread = rec.is_thread) ∧
    (∀ o ∈ corpus, ∀ r ∈ o.thread.getD [], r.id = some t →
      r.is_thread = rec.is_thread) := by
  obtain ⟨h1, h2⟩ := corpus_record_eq_lastWithId h ht hrec
  exact ⟨fun o ho hid => by rw [h1 o ho hid],
         fun o ho r hr hid => by rw [h2 o ho r hr hid]⟩

/-- Witness for the amended C9 at the counterexample input: the winner is
the later batch record with `isThread = false` and the corpus record
agrees with it. -/
theorem c9_amended_is_thread_last_write_witness :
    (∀ o ∈ [(⟨{ id := some "1" }, none⟩ : OutTweet)],
      o.base.id = some "1" →
      o.base.is_thread = ({ id := some "1" } : Tweet).is_thread) ∧
    (∀ o ∈ [(⟨{ id := some "1" }, none⟩ : OutTweet)],
      ∀ r ∈ o.thread.getD [], r.id = some "1" →
      r.is_thread = ({ id := some "1" } : Tweet).is_thread) :=
  c9_amended_is_thread_last_write
    [[{ id := some "1", thread_id := some "1", is_thread := true }],
     [{ id := some "1" }]]
    []
    [⟨{ id := some "1" }, none⟩]
    "1" { id := some "1" }
    rfl (by decide) rfl

/-- C10: every record of the final corpus, top-level or nested in a
`thread` array, carries a non-null non-empty id (records with falsy ids
are dropped by the id guard of the load loops), while the extractor can
indeed emit a record with a null id when the `legacy` block lacks
`id_str`. -/
theorem c10_corpus_ids_truthy
    (bs : List (List Tweet)) (ths : List (String × List Tweet))
    (corpus : List OutTweet) (h : megaParse bs ths = .ok corpus) :
    (∀ o ∈ corpus, ∃ s, o.base.id = some s ∧ s ≠ "") ∧
    (∀ o ∈ corpus, ∀ r ∈ o.thread.getD [], ∃ s, r.id = some s ∧ s ≠ "") ∧
    (∀ (r : TweetResult) (l : Legacy) (tid : Option String),
      (effectiveFields r).legacy = some l → l.id_str = none →
      ∃ rec, extract_tweet_data r tid = some rec ∧ rec.id = none) := by
  have hmem := corpus_members h
  refine ⟨?_, ?_, ?_⟩
  · intro o ho
    exact values_id_truthy bs ths _ ((hmem o ho).1)
  · intro o ho r hr
    exact values_id_truthy bs ths _ ((hmem o ho).2 r hr)
  · intro r l tid hl hid
    refine ⟨{ id := l.id_str, thread_id := tid, created_at := l.created_at,
              full_text := l.full_text, is_thread := truthy tid,
              is_pinned := false }, ?_, ?_⟩
    · unfold extract_tweet_data
      rw [hl]
    · simpa using hid

/-- Witness for C10 at a concrete input. -/
theorem c10_corpus_ids_truthy_witness :
    (∀ o ∈ [(⟨{ id := some "1" }, none⟩ : OutTweet)],
      ∃ s, o.base.id = some s ∧ s ≠ "") ∧
    (∀ o ∈ [(⟨{ id := some "1" }, none⟩ : OutTweet)],
      ∀ r ∈ o.thread.getD [], ∃ s, r.id = some s ∧ s ≠ "") ∧
    (∀ (r : TweetResult) (l : Legacy) (tid : Option String),
      (effectiveFields r).legacy = some l → l.id_str = none →
      ∃ rec, extract_tweet_data r tid = some rec ∧ rec.id = none) :=
  c10_corpus_ids_truthy [[{ id := some "1" }]] [] [⟨{ id := some "1" }, none⟩] rfl

/-- C2: thread root resolution.  Every bucket is first sorted by
`createdAt` ascending; if a member's id equals the bucket's thread id,
a single corpus record is produced from it with the remaining sorted
members as its `thread`; otherwise every member enters the corpus
individually with no `thread` attached. -/
theorem c2_thread_root_resolution
    (bs : List (List Tweet)) (ths : List (String × List Tweet))
    (corpus : List OutTweet) (tid : String) (group : List Tweet)
    (h : megaParse bs ths = .ok corpus)
    (hg : (tid, group) ∈ groupsOf (valuesOf bs ths)) :
    ∃ sorted, sortE ltAsc group = .ok sorted ∧ sorted.Perm group ∧
      ascSorted sorted ∧
      (∀ root, sorted.find? (fun x => x.id == some tid) = some root →
        (⟨root, some (sorted.filter (fun x => !(x.id == some tid)))⟩ : OutTweet)
          ∈ corpus) ∧
      (sorted.find? (fun x => x.id == some tid) = none →
        ∀ x ∈ sorted, (⟨x, none⟩ : OutTweet) ∈ corpus) ∧
      (sorted.find? (fun x => x.id == some tid) = none ↔
        ∀ x ∈ group, x.id ≠ some tid) := by
  obtain ⟨fg, hpg, hsort⟩ := megaParse_ok_parts h
  obtain ⟨b, hb, hsub⟩ := (processGroups_parts hpg).1 (tid, group) hg
  obtain ⟨sorted, hsorted, hshape⟩ := processBucket_shape hb
  have hperm : sorted.Perm group := sortE_perm hsorted
  have hmemcorpus : ∀ x ∈ b, x ∈ corpus := by
    intro x hx
    exact (sortE_perm hsort).mem_iff.mpr
      (List.mem_append.mpr (Or.inr (hsub x hx)))
  refine ⟨sorted, hsorted, hperm, ltAsc_sorted hsorted, ?_, ?_, ?_⟩
  · intro root hroot
    rcases hshape with ⟨root', hfind, rfl⟩ | ⟨hfind, _⟩
    · have : root' = root := by
        rw [hfind] at hroot
        exact Option.some.inj hroot
      subst this
      exact hmemcorpus _ (List.mem_singleton_self _)
    · rw [hfind] at hroot
      exact Option.noConfusion hroot
  · intro hnone x hx
    rcases hshape with ⟨root', hfind, rfl⟩ | ⟨hfind, rfl⟩
    · rw [hfind] at hnone
      exact Option.noConfusion hnone
    · exact hmemcorpus _ (List.mem_map.mpr ⟨x, hx, rfl⟩)
  · rw [List.find?_eq_none]
    constructor
    · intro hall x hxg hxid
      exact hall x (hperm.mem_iff.mpr hxg) (by simp [hxid])
    · intro hall x hxs
      simpa using hall x (hperm.subset hxs)

/-- Witness for C2 at a concrete bucket with a root. -/
theorem c2_thread_root_resolution_witness :
    ∃ sorted,
      sortE ltAsc ([{ id := some "1", thread_id := some "1", is_thread := true },
                    { id := some "2", thread_id := some "1", is_thread := true }] :
        List Tweet)
        = .ok sorted ∧
      sorted.Perm ([{ id := some "1", thread_id := some "1", is_thread := true },
                    { id := some "2", thread_id := some "1", is_thread := true }] :
        List Tweet) ∧
      ascSorted sorted ∧
      (∀ root, sorted.find? (fun x => x.id == some "1") = some root →
        (⟨root, some (sorted.filter (fun x => !(x.id == some "1")))⟩ : OutTweet)
          ∈ [(⟨{ id := some "1", thread_id := some "1", is_thread := true },
              some [{ id := some "2", thread_id := some "1",
                      is_thread := true }]⟩ : OutTweet)]) ∧
      (sorted.find? (fun x => x.id == some "1") = none →
        ∀ x ∈ sorted, (⟨x, none⟩ : OutTweet)
          ∈ [(⟨{ id := some "1", thread_id := some "1", is_thread := true },
              some [{ id := some "2", thread_id := some "1",
                      is_thread := true }]⟩ : OutTweet)]) ∧
      (sorted.find? (fun x => x.id == some "1") = none ↔
        ∀ x ∈ ([{ id := some "1", thread_id := some "1", is_thread := true },
                { id := some "2", thread_id := some "1", is_thread := true }] :
          List Tweet),
          x.id ≠ some "1") :=
  c2_thread_root_resolution
    [] [("1", [{ id := some "1" }, { id := some "2" }])]
    [⟨{ id := some "1", thread_id := some "1", is_thread := true },
      some [{ id := some "2", thread_id := some "1", is_thread := true }]⟩]
    "1"
    [{ id := some "1", thread_id := some "1", is_thread := true },
     { id := some "2", thread_id := some "1", is_thread := true }]
    rfl (by decide)

/-! ## The timeline parser: incomplete-thread characterization -/

theorem mem_joinOuts_snd {l : List (List Tweet × List String)} {t : String} :
    t ∈ (joinOuts l).2 ↔ ∃ p ∈ l, t ∈ p.2 := by
  unfold joinOuts
  simp only [List.mem_flatten, List.mem_map]
  constructor
  · rintro ⟨s, ⟨p, hp, rfl⟩, hts⟩
    exact ⟨p, hp, hts⟩
  · rintro ⟨p, hp, ht⟩
    exact ⟨p.2, ⟨p, hp, rfl⟩, ht⟩

theorem mem_entryOut_snd {e : Entry} {t : String} :
    t ∈ (entryOut e).2 ↔ ∃ m, e = .module m ∧ t ∈ moduleIncomplete m := by
  cases e with
  | item r => simp [entryOut]
  | other => simp [entryOut]
  | module m => simp [entryOut]

theorem mem_instrOut_snd {i : Instruction} {t : String} :
    t ∈ (instrOut i).2 ↔
      ∃ es, i = .addEntries es ∧ ∃ e ∈ es, t ∈ (entryOut e).2 := by
  cases i with
  | pin r => simp [instrOut]
  | other => simp [instrOut]
  | addEntries es =>
      simp only [instrOut, mem_joinOuts_snd, Instruction.addEntries.injEq]
      constructor
      · rintro ⟨p, hp, ht⟩
        rcases List.mem_map.mp hp with ⟨e, he, rfl⟩
        exact ⟨es, rfl, e, he, ht⟩
      · rintro ⟨es', rfl, e, he, ht⟩
        exact ⟨entryOut e, List.mem_map.mpr ⟨e, he, rfl⟩, ht⟩

theorem mem_moduleIncomplete {m : ConversationModule} {t : String} :
    t ∈ moduleIncomplete m ↔
      resolveRootId m = some t ∧ t ≠ "" ∧
        m.items.length < m.allTweetIds.length := by
  unfold moduleIncomplete
  cases hr : resolveRootId m with
  | none => simp
  | some u =>
      dsimp only
      by_cases hc : m.items.length < m.allTweetIds.length ∧ u ≠ ""
      · rw [if_pos hc]
        simp only [List.mem_singleton, Option.some.injEq]
        constructor
        · rintro rfl
          exact ⟨rfl, hc.2, hc.1⟩
        · rintro ⟨h, _, _⟩
          exact h.symm
      · rw [if_neg hc]
        simp only [List.not_mem_nil, false_iff, not_and, Option.some.injEq]
        rintro rfl hne hlt
        exact hc ⟨hlt, hne⟩

/-- C6: incomplete-thread detection.  An id is in the incomplete-threads
result exactly when some conversation module of the response resolves its
first item to that (truthy) id and contains strictly fewer items than the
server-declared `allTweetIds`; in particular a module with as many or
more items than declared contributes nothing. -/
theorem c6_incomplete_thread_detection (resp : TimelineResponse) (t : String) :
    t ∈ (parse_response resp).2 ↔
      ∃ m : ConversationModule, moduleMem m resp ∧ resolveRootId m = some t ∧
        t ≠ "" ∧ m.items.length < m.allTweetIds.length := by
  unfold parse_response moduleMem
  cases hins : resp.instructions with
  | none => simp
  | some is =>
      simp only [Option.getD_some, mem_joinOuts_snd]
      constructor
      · rintro ⟨p, hp, ht⟩
        rcases List.mem_map.mp hp with ⟨i, hi, rfl⟩
        rcases mem_instrOut_snd.mp ht with ⟨es, rfl, e, he, hte⟩
        rcases mem_entryOut_snd.mp hte with ⟨m, rfl, htm⟩
        obtain ⟨h1, h2, h3⟩ := mem_moduleIncomplete.mp htm
        exact ⟨m, ⟨es, hi, he⟩, h1, h2, h3⟩
      · rintro ⟨m, ⟨es, hi, he⟩, h1, h2, h3⟩
        refine ⟨instrOut (.addEntries es), List.mem_map.mpr ⟨_, hi, rfl⟩, ?_⟩
        refine mem_instrOut_snd.mpr ⟨es, rfl, .module m, he, ?_⟩
        exact mem_entryOut_snd.mpr ⟨m, rfl, mem_moduleIncomplete.mpr ⟨h1, h2, h3⟩⟩

/-- Witness for C6 at the spec's instance: a module declaring five ids
but containing three items yields its root id. -/
theorem c6_incomplete_thread_detection_witness :
    "10" ∈ (parse_response
      ⟨some [.addEntries [.module
        { items := [⟨some { fields := { legacy := some { id_str := some "10" } } }⟩,
                    ⟨some { fields := { legacy := some { id_str := some "11" } } }⟩,
                    ⟨some { fields := { legacy := some { id_str := some "12" } } }⟩],
          allTweetIds := ["10", "11", "12", "13", "14"] }]]⟩).2 ↔
    ∃ m : ConversationModule,
      moduleMem m ⟨some [.addEntries [.module
        { items := [⟨some { fields := { legacy := some { id_str := some "10" } } }⟩,
                    ⟨some { fields := { legacy := some { id_str := some "11" } } }⟩,
                    ⟨some { fields := { legacy := some { id_str := some "12" } } }⟩],
          allTweetIds := ["10", "11", "12", "13", "14"] }]]⟩ ∧
      resolveRootId m = some "10" ∧ "10" ≠ "" ∧
      m.items.length < m.allTweetIds.length :=
  c6_incomplete_thread_detection
    ⟨some [.addEntries [.module
      { items := [⟨some { fields := { legacy := some { id_str := some "10" } } }⟩,
                  ⟨some { fields := { legacy := some { id_str := some "11" } } }⟩,
                  ⟨some { fields := { legacy := some { id_str := some "12" } } }⟩],
        allTweetIds := ["10", "11", "12", "13", "14"] }]]⟩ "10"

/-- C7 counterexample: a conversation module whose first item cannot be
resolved to a post id is not skipped entirely — its second item's record
is still emitted (untagged), contradicting the claim that the module
contributes no post records. -/
theorem c7_unresolvable_root_counterexample :
    resolveRootId
      { items := [⟨none⟩,
                  ⟨some { fields := { legacy := some { id_str := some "2" } } }⟩],
        allTweetIds := ["1", "2", "3"] } = none ∧
    parse_response
      ⟨some [.addEntries [.module
        { items := [⟨none⟩,
                    ⟨some { fields := { legacy := some { id_str := some "2" } } }⟩],
          allTweetIds := ["1", "2", "3"] }]]⟩ =
      ([{ id := some "2" }], []) ∧
    ([{ id := some "2" }] : List Tweet) ≠ [] :=
  ⟨rfl, rfl, by decide⟩

/-- C7 amended: a module whose first item cannot be resolved to a post id
contributes no incomplete-thread id, but its items are still processed
individually: every record it yields carries no `threadId` and has
`isThread` false. -/
theorem c7_amended_unresolvable_root (m : ConversationModule)
    (h : resolveRootId m = none) :
    moduleIncomplete m = [] ∧
    moduleRecords m = m.items.filterMap (fun i => extractOpt i.result none) ∧
    ∀ r ∈ moduleRecords m, r.thread_id = none ∧ r.is_thread = false := by
  have h1 : moduleIncomplete m = [] := by
    unfold moduleIncomplete
    rw [h]
  have h2 : moduleRecords m =
      m.items.filterMap (fun i => extractOpt i.result none) := by
    unfold moduleRecords
    rw [h]
  refine ⟨h1, h2, ?_⟩
  intro r hr
  rw [h2] at hr
  rcases List.mem_filterMap.mp hr with ⟨i, _, hext⟩
  unfold extractOpt at hext
  cases hres : i.result with
  | none => rw [hres] at hext; simp at hext
  | some tr =>
      rw [hres] at hext
      simp only [Option.some_bind] at hext
      unfold extract_tweet_data at hext
      cases hleg : (effectiveFields tr).legacy with
      | none => rw [hleg] at hext; simp at hext
      | some l =>
          rw [hleg] at hext
          rw [← Option.some.inj hext]
          exact ⟨rfl, rfl⟩

/-- Witness for the amended C7 at the counterexample module. -/
theorem c7_amended_unresolvable_root_witness :
    moduleIncomplete
      { items := [⟨none⟩,
                  ⟨some { fields := { legacy := some { id_str := some "2" } } }⟩],
        allTweetIds := ["1", "2", "3"] } = [] ∧
    moduleRecords
      { items := [⟨none⟩,
                  ⟨some { fields := { legacy := some { id_str := some "2" } } }⟩],
        allTweetIds := ["1", "2", "3"] } =
      List.filterMap (fun i => extractOpt i.result none)
        ({ items := [⟨none⟩,
                     ⟨some { fields := { legacy := some { id_str := some "2" } } }⟩],
           allTweetIds := ["1", "2", "3"] } : ConversationModule).items ∧
    ∀ r ∈ moduleRecords
      { items := [⟨none⟩,
                  ⟨some { fields := { legacy := some { id_str := some "2" } } }⟩],
        allTweetIds := ["1", "2", "3"] },
      r.thread_id = none ∧ r.is_thread = false :=
  c7_amended_unresolvable_root
    { items := [⟨none⟩,
                ⟨some { fields := { legacy := some { id_str := some "2" } } }⟩],
      allTweetIds := ["1", "2", "3"] }
    rfl

/-! ## The parsers' exception flow (dynamic model) -/

theorem daAppend_daEmpty (a : DAcc) : daAppend a daEmpty = a := by
  cases a
  simp [daAppend, daEmpty]

theorem foldAbort_no_abort (f : α → DAcc × Bool) :
    ∀ l : List α, (∀ x ∈ l, (f x).2 = false) →
      foldAbort f l = (daJoin (l.map (fun x => (f x).1)), false) := by
  intro l
  induction l with
  | nil => intro _; rfl
  | cons x l ih =>
      intro h
      have hx : (f x).2 = false := h x (List.mem_cons_self x l)
      simp only [foldAbort]
      rw [hx]
      simp only [Bool.false_eq_true, if_false]
      rw [ih (fun y hy => h y (List.mem_cons_of_mem x hy))]
      rfl

/-- C8 counterexample: in `entries = [good₁, bad, good₂]` the middle
entry's `content` is a string, so `content.get('entryType')` raises; the
response-level handler fires and `good₂` — well-formed and parseable on
its own — is never parsed: only one record comes back instead of two, in
both parsers.  This contradicts per-entry fault isolation. -/
theorem c8_fault_isolation_counterexample :
    (parseResponseDyn (mkTimelineResponse
      [.obj [("content", .obj [("entryType", .str "TimelineTimelineItem"),
        ("itemContent", .obj [("tweet_results", .obj [("result",
          .obj [("legacy", .obj [("id_str", .str "1")])])])])])],
       .obj [("content", .str "boom")],
       .obj [("content", .obj [("entryType", .str "TimelineTimelineItem"),
        ("itemContent", .obj [("tweet_results", .obj [("result",
          .obj [("legacy", .obj [("id_str", .str "2")])])])])])]])).1.1.length
      = 1 ∧
    (parseResponseDyn (mkTimelineResponse
      [.obj [("content", .obj [("entryType", .str "TimelineTimelineItem"),
        ("itemContent", .obj [("tweet_results", .obj [("result",
          .obj [("legacy", .obj [("id_str", .str "1")])])])])])],
       .obj [("content", .str "boom")],
       .obj [("content", .obj [("entryType", .str "TimelineTimelineItem"),
        ("itemContent", .obj [("tweet_results", .obj [("result",
          .obj [("legacy", .obj [("id_str", .str "2")])])])])])]])).2 = true ∧
    (entryDyn (.obj [("content", .obj [("entryType", .str "TimelineTimelineItem"),
        ("itemContent", .obj [("tweet_results", .obj [("result",
          .obj [("legacy", .obj [("id_str", .str "2")])])])])])])).2 = false ∧
    (entryDyn (.obj [("content", .obj [("entryType", .str "TimelineTimelineItem"),
        ("itemContent", .obj [("tweet_results", .obj [("result",
          .obj [("legacy", .obj [("id_str", .str "2")])])])])])])).1.1.length
      = 1 ∧
    (parseResponseDyn (mkTimelineResponse
      [.obj [("content", .obj [("entryType", .str "TimelineTimelineItem"),
        ("itemContent", .obj [("tweet_results", .obj [("result",
          .obj [("legacy", .obj [("id_str", .str "1")])])])])])],
       .obj [("content", .obj [("entryType", .str "TimelineTimelineItem"),
        ("itemContent", .obj [("tweet_results", .obj [("result",
          .obj [("legacy", .obj [("id_str", .str "2")])])])])])]])).1.1.length
      = 2 ∧
    (parseTweetDetailDyn (mkDetailResponse
      [.obj [("content", .obj [("entryType", .str "TimelineTimelineItem"),
        ("itemContent", .obj [("tweet_results", .obj [("result",
          .obj [("legacy", .obj [("id_str", .str "1")])])])])])],
       .obj [("content", .str "boom")],
       .obj [("content", .obj [("entryType", .str "TimelineTimelineItem"),
        ("itemContent", .obj [("tweet_results", .obj [("result",
          .obj [("legacy", .obj [("id_str", .str "2")])])])])])]])).1.length
      = 1 ∧
    (parseTweetDetailDyn (mkDetailResponse
      [.obj [("content", .obj [("entryType", .str "TimelineTimelineItem"),
        ("itemContent", .obj [("tweet_results", .obj [("result",
          .obj [("legacy", .obj [("id_str", .str "1")])])])])])],
       .obj [("content", .str "boom")],
       .obj [("content", .obj [("entryType", .str "TimelineTimelineItem"),
        ("itemContent", .obj [("tweet_results", .obj [("result",
          .obj [("legacy", .obj [("id_str", .str "2")])])])])])]])).2 = true :=
  ⟨rfl, rfl, rfl, rfl, rfl, rfl, rfl⟩

/-- C8 amended: the parsers never raise (the whole entry loop is wrapped
in one handler, so the function always returns), and *when no entry's
processing raises* every entry is processed and the output is the
concatenation of the per-entry outputs — an entry that merely yields no
record is skipped without affecting the others.  But the catch is
per-response, not per-entry: an entry that raises aborts the remaining
entries of that response (see the counterexample). -/
theorem c8_amended_fault_isolation :
    (∀ es : List JVal, (∀ e ∈ es, (entryDyn e).2 = false) →
      parseResponseDyn (mkTimelineResponse es) =
        (daJoin (es.map (fun e => (entryDyn e).1)), false)) ∧
    (∀ es : List JVal, (∀ e ∈ es, (detailEntryDyn e).2 = false) →
      parseTweetDetailDyn (mkDetailResponse es) =
        ((daJoin (es.map (fun e => (detailEntryDyn e).1))).1, false)) := by
  constructor
  · intro es h
    have h0 : parseResponseDyn (mkTimelineResponse es) =
        foldAbort instrDyn
          [.obj [("type", .str "TimelineAddEntries"),
                 ("entries", .arr es)]] := rfl
    have h1 : instrDyn (.obj [("type", .str "TimelineAddEntries"),
        ("entries", .arr es)]) = foldAbort entryDyn es := rfl
    rw [h0]
    simp only [foldAbort]
    rw [h1, foldAbort_no_abort entryDyn es h]
    simp only [Bool.false_eq_true, if_false, daAppend_daEmpty]
  · intro es h
    have h0 : parseTweetDetailDyn (mkDetailResponse es) =
        ((foldAbort detailInstrDyn
          [.obj [("type", .str "TimelineAddEntries"),
                 ("entries", .arr es)]]).1.1,
         (foldAbort detailInstrDyn
          [.obj [("type", .str "TimelineAddEntries"),
                 ("entries", .arr es)]]).2) := rfl
    have h1 : detailInstrDyn (.obj [("type", .str "TimelineAddEntries"),
        ("entries", .arr es)]) = foldAbort detailEntryDyn es := rfl
    rw [h0]
    simp only [foldAbort]
    rw [h1, foldAbort_no_abort detailEntryDyn es h]
    simp only [Bool.false_eq_true, if_false, daAppend_daEmpty]

/-- Witness for the amended C8: two well-formed entries, none raising;
both parsers return both records and no abort. -/
theorem c8_amended_fault_isolation_witness :
    parseResponseDyn (mkTimelineResponse
      [.obj [("content", .obj [("entryType", .str "TimelineTimelineItem"),
        ("itemContent", .obj [("tweet_results", .obj [("result",
          .obj [("legacy", .obj [("id_str", .str "7")])])])])])],
       .obj [("content", .obj [("entryType", .str "TimelineTimelineItem"),
        ("itemContent", .obj [("tweet_results", .obj [("result",
          .obj [("legacy", .obj [("id_str", .str "8")])])])])])]]) =
      (daJoin
        ([.obj [("content", .obj [("entryType", .str "TimelineTimelineItem"),
           ("itemContent", .obj [("tweet_results", .obj [("result",
             .obj [("legacy", .obj [("id_str", .str "7")])])])])])],
          .obj [("content", .obj [("entryType", .str "TimelineTimelineItem"),
           ("itemContent", .obj [("tweet_results", .obj [("result",
             .obj [("legacy", .obj [("id_str", .str "8")])])])])])]].map
          (fun e => (entryDyn e).1)), false) ∧
    parseTweetDetailDyn (mkDetailResponse
      [.obj [("content", .obj [("entryType", .str "TimelineTimelineItem"),
        ("itemContent", .obj [("tweet_results", .obj [("result",
          .obj [("legacy", .obj [("id_str", .str "7")])])])])])]]) =
      ((daJoin
        ([.obj [("content", .obj [("entryType", .str "TimelineTimelineItem"),
           ("itemContent", .obj [("tweet_results", .obj [("result",
             .obj [("legacy", .obj [("id_str", .str "7")])])])])])]].map
          (fun e => (detailEntryDyn e).1))).1, false) :=
  ⟨c8_amended_fault_isolation.1 _
    (List.forall_mem_cons.mpr ⟨rfl, List.forall_mem_cons.mpr ⟨rfl, by simp⟩⟩),
   c8_amended_fault_isolation.2 _
    (List.forall_mem_cons.mpr ⟨rfl, by simp⟩)⟩

/-! ## Determinism under unit reordering -/

theorem perm_flatten {L₁ L₂ : List (List α)} (h : L₁.Perm L₂) :
    L₁.flatten.Perm L₂.flatten := by
  induction h with
  | nil => exact List.Perm.refl _
  | cons x _ ih =>
      rw [List.flatten_cons, List.flatten_cons]
      exact ih.append_left x
  | swap x y l =>
      rw [List.flatten_cons, List.flatten_cons, List.flatten_cons,
        List.flatten_cons, ← List.append_assoc, ← List.append_assoc]
      exact (List.perm_append_comm).append_right l.flatten
  | trans _ _ ih₁ ih₂ => exact ih₁.trans ih₂

theorem stream_perm {bs₁ bs₂ : List (List Tweet)}
    {ths₁ ths₂ : List (String × List Tweet)}
    (hb : bs₁.Perm bs₂) (hth : ths₁.Perm ths₂) :
    (streamOf bs₁ ths₁).Perm (streamOf bs₂ ths₂) := by
  unfold streamOf
  exact (perm_flatten hb).append
    (perm_flatten (hth.map (fun u => processThreadUnit u.1 u.2)))

theorem getLast?_eq_of_perm_allEq {l₁ l₂ : List α} (hp : l₁.Perm l₂)
    (h : ∀ x ∈ l₁, ∀ y ∈ l₁, x = y) : l₁.getLast? = l₂.getLast? := by
  cases hl₁ : l₁ with
  | nil =>
      rw [hl₁] at hp
      rw [hp.nil_eq]
  | cons a t₁ =>
      subst hl₁
      have h₂ : l₂ ≠ [] := by
        intro he
        rw [he] at hp
        exact absurd hp.symm.nil_eq (by simp)
      rcases Option.isSome_iff_exists.mp
        (List.getLast?_isSome.mpr (List.cons_ne_nil a t₁)) with ⟨g₁, hg₁⟩
      rcases Option.isSome_iff_exists.mp (List.getLast?_isSome.mpr h₂) with ⟨g₂, hg₂⟩
      have hm₁ : g₁ ∈ a :: t₁ := List.mem_of_mem_getLast? hg₁
      have hm₂ : g₂ ∈ a :: t₁ := hp.symm.subset (List.mem_of_mem_getLast? hg₂)
      rw [hg₁, hg₂, h g₁ hm₁ g₂ hm₂]

theorem lastWithId_eq_of_perm {l₁ l₂ : List Tweet}
    (hp : l₁.Perm l₂)
    (hdup : ∀ r ∈ l₁, ∀ r' ∈ l₁, r.id = r'.id → r = r') (t : String) :
    lastWithId l₁ t = lastWithId l₂ t := by
  unfold lastWithId
  refine getLast?_eq_of_perm_allEq (hp.filter _) ?_
  intro x hx y hy
  have hx' := List.mem_filter.mp hx
  have hy' := List.mem_filter.mp hy
  refine hdup x hx'.1 y hy'.1 ?_
  have h1 : x.id = some t := by simpa using hx'.2
  have h2 : y.id = some t := by simpa using hy'.2
  rw [h1, h2]

theorem mem_values_of_lastWithId {bs : List (List Tweet)}
    {ths : List (String × List Tweet)} {v : Tweet} {s : String}
    (hs : s ≠ "") (h : lastWithId (streamOf bs ths) s = some v) :
    v ∈ valuesOf bs ths := by
  have := (alookup_buildAllTweets bs ths s hs).trans h
  unfold alookup at this
  cases hf : (buildAllTweets bs ths).find? (fun p => p.1 == s) with
  | none => rw [hf] at this; exact Option.noConfusion this
  | some p =>
      rw [hf] at this
      have hpv : p.2 = v := by simpa using this
      exact List.mem_map.mpr ⟨p, List.mem_of_find?_eq_some hf, hpv⟩

theorem values_mem_iff {bs₁ bs₂ : List (List Tweet)}
    {ths₁ ths₂ : List (String × List Tweet)}
    (hb : bs₁.Perm bs₂) (hth : ths₁.Perm ths₂)
    (hdup : ∀ r ∈ streamOf bs₁ ths₁, ∀ r' ∈ streamOf bs₁ ths₁,
      r.id = r'.id → r = r') (v : Tweet) :
    v ∈ valuesOf bs₁ ths₁ ↔ v ∈ valuesOf bs₂ ths₂ := by
  have hsp := stream_perm hb hth
  have hdup₂ : ∀ r ∈ streamOf bs₂ ths₂, ∀ r' ∈ streamOf bs₂ ths₂,
      r.id = r'.id → r = r' := by
    intro r hr r' hr'
    exact hdup r (hsp.symm.subset hr) r' (hsp.symm.subset hr')
  constructor
  · intro hv
    rcases values_id_truthy bs₁ ths₁ v hv with ⟨s, hid, hs⟩
    have h1 := lastWithId_of_mem_values bs₁ ths₁ hv hid hs
    rw [lastWithId_eq_of_perm hsp hdup s] at h1
    exact mem_values_of_lastWithId hs h1
  · intro hv
    rcases values_id_truthy bs₂ ths₂ v hv with ⟨s, hid, hs⟩
    have h1 := lastWithId_of_mem_values bs₂ ths₂ hv hid hs
    rw [← lastWithId_eq_of_perm hsp hdup s] at h1
    exact mem_values_of_lastWithId hs h1

theorem values_perm {bs₁ bs₂ : List (List Tweet)}
    {ths₁ ths₂ : List (String × List Tweet)}
    (hb : bs₁.Perm bs₂) (hth : ths₁.Perm ths₂)
    (hdup : ∀ r ∈ streamOf bs₁ ths₁, ∀ r' ∈ streamOf bs₁ ths₁,
      r.id = r'.id → r = r') :
    (valuesOf bs₁ ths₁).Perm (valuesOf bs₂ ths₂) :=
  (List.perm_ext_iff_of_nodup (values_nodup bs₁ ths₁)
    (values_nodup bs₂ ths₂)).mpr (values_mem_iff hb hth hdup)

theorem processGroups_total_flatten :
    ∀ gs : Groups, (∀ p ∈ gs, ∃ b, processBucket p.1 p.2 = .ok b) →
      ∃ bout, List.Forall₂ (fun p b => processBucket p.1 p.2 = .ok b) gs bout ∧
        processGroups gs = .ok bout.flatten := by
  intro gs
  have haux : ∀ (gs : Groups) (acc : List OutTweet),
      (∀ p ∈ gs, ∃ b, processBucket p.1 p.2 = .ok b) →
      ∃ bout, List.Forall₂ (fun p b => processBucket p.1 p.2 = .ok b) gs bout ∧
        (gs.foldlM (fun acc p => do pure (acc ++ (← processBucket p.1 p.2))) acc)
          = .ok (acc ++ bout.flatten) := by
    intro gs
    induction gs with
    | nil =>
        intro acc _
        exact ⟨[], List.Forall₂.nil, by simp only [List.foldlM, List.flatten_nil,
          List.append_nil, exc_pure]⟩
    | cons p gs ih =>
        intro acc h
        rcases h p (List.mem_cons_self p gs) with ⟨b, hb⟩
        rcases ih (acc ++ b) (fun q hq => h q (List.mem_cons_of_mem p hq)) with
          ⟨bout, hf, hfold⟩
        refine ⟨b :: bout, List.Forall₂.cons hb hf, ?_⟩
        simp only [List.foldlM]
        rw [hb, exc_bind_ok, exc_pure, exc_bind_ok, hfold]
        simp
  intro h
  rcases haux gs [] h with ⟨bout, hf, hfold⟩
  exact ⟨bout, hf, by simpa [processGroups] using hfold⟩

theorem forall₂_eq_map {R : α → β → Prop} {f : α → β} :
    ∀ {l : List α} {l' : List β}, List.Forall₂ R l l' →
      (∀ a b, a ∈ l → R a b → f a = b) → l' = l.map f := by
  intro l l' h
  induction h with
  | nil => intro _; rfl
  | cons hab h ih =>
      intro hf
      rw [List.map_cons, ← hf _ _ (List.mem_cons_self _ _) hab]
      rw [ih (fun a b ha hr => hf a b (List.mem_cons_of_mem _ ha) hr)]

theorem sortE_ltAsc_total {l : List Tweet}
    (h : ∀ x ∈ l, (dateKey x).isSome) : ∃ s, sortE ltAsc l = .ok s := by
  refine sortE_total l ?_
  intro a b ha hb
  rcases Option.isSome_iff_exists.mp (h a ha) with ⟨ka, hka⟩
  rcases Option.isSome_iff_exists.mp (h b hb) with ⟨kb, hkb⟩
  exact ⟨decide (ka < kb), by simp [ltAsc, hka, hkb, pyLt]⟩

theorem sortE_ltDesc_total {l : List OutTweet}
    (h : ∀ x ∈ l, (outKey x).isSome) : ∃ s, sortE ltDesc l = .ok s := by
  refine sortE_total l ?_
  intro a b ha hb
  rcases Option.isSome_iff_exists.mp (h a ha) with ⟨ka, hka⟩
  rcases Option.isSome_iff_exists.mp (h b hb) with ⟨kb, hkb⟩
  exact ⟨decide (kb < ka), by simp [ltDesc, hka, hkb, pyLt]⟩

theorem leK_antisymm_some {x y : Option Int} (hx : x.isSome) (hy : y.isSome)
    (h1 : leK x y = true) (h2 : leK y x = true) : x = y := by
  rcases Option.isSome_iff_exists.mp hx with ⟨a, rfl⟩
  rcases Option.isSome_iff_exists.mp hy with ⟨b, rfl⟩
  simp only [leK, decide_eq_true_eq] at h1 h2
  exact congrArg some (le_antisymm h1 h2)

theorem processBucket_total {tid : String} {g s : List Tweet}
    (h : sortE ltAsc g = .ok s) : ∃ b, processBucket tid g = .ok b := by
  unfold processBucket
  rw [h, exc_bind_ok]
  cases hf : s.find? (fun t => t.id == some tid) with
  | some root => exact ⟨_, rfl⟩
  | none => exact ⟨_, rfl⟩

theorem processBucket_congr {tid : String} {g₁ g₂ s : List Tweet}
    (h₁ : sortE ltAsc g₁ = .ok s) (h₂ : sortE ltAsc g₂ = .ok s) :
    processBucket tid g₁ = processBucket tid g₂ := by
  unfold processBucket
  rw [h₁, h₂]

theorem processGroups_elt_char {values : List Tweet} {out : List OutTweet}
    (h : processGroups (groupsOf values) = .ok out) :
    ∀ x ∈ out, ∃ tid s,
      tid ≠ "" ∧
      sortE ltAsc (values.filter (fun t => t.thread_id == some tid)) = .ok s ∧
      ((∃ root, s.find? (fun z => z.id == some tid) = some root ∧
         x = ⟨root, some (s.filter (fun z => !(z.id == some tid)))⟩) ∨
       (s.find? (fun z => z.id == some tid) = none ∧ ∃ t ∈ s, x = ⟨t, none⟩)) := by
  intro x hx
  rcases (processGroups_parts h).2 x hx with ⟨p, hp, b, hb, hxb⟩
  obtain ⟨hkey, hbucket⟩ := groupsOf_bucket hp
  obtain ⟨s, hs, hshape⟩ := processBucket_shape hb
  rw [hbucket] at hs
  refine ⟨p.1, s, hkey, hs, ?_⟩
  rcases hshape with ⟨root, hfind, rfl⟩ | ⟨hfind, rfl⟩
  · rw [List.mem_singleton] at hxb
    exact Or.inl ⟨root, hfind, hxb⟩
  · rcases List.mem_map.mp hxb with ⟨t, ht, rfl⟩
    exact Or.inr ⟨hfind, t, ht, rfl⟩

theorem sorted_bucket_thread_id {values s : List Tweet} {tid : String}
    (hs : sortE ltAsc (values.filter (fun t => t.thread_id == some tid)) = .ok s) :
    ∀ z ∈ s, z.thread_id = some tid ∧ z ∈ values := by
  intro z hz
  have hz' := (sortE_perm hs).subset hz
  have := List.mem_filter.mp hz'
  exact ⟨by simpa using this.2, this.1⟩

theorem corpus0_base_inj {values : List Tweet} {out : List OutTweet}
    (hout : processGroups (groupsOf values) = .ok out) :
    ∀ x ∈ ((splitStandalone values).1.map (fun t => (⟨t, none⟩ : OutTweet))) ++ out,
      ∀ y ∈ ((splitStandalone values).1.map (fun t => (⟨t, none⟩ : OutTweet))) ++ out,
        x.base = y.base → x = y := by
  have hst : ∀ x ∈ (splitStandalone values).1, truthy x.thread_id = false := by
    intro x hx
    rw [splitStandalone_fst] at hx
    simpa using (List.mem_filter.mp hx).2
  have hchar := processGroups_elt_char hout
  have houtTruthy : ∀ x ∈ out, ∃ tid, tid ≠ "" ∧ x.base.thread_id = some tid := by
    intro x hx
    rcases hchar x hx with ⟨tid, s, hk, hs, hshape⟩
    refine ⟨tid, hk, ?_⟩
    rcases hshape with ⟨root, hfind, rfl⟩ | ⟨_, t, ht, rfl⟩
    · exact (sorted_bucket_thread_id hs root (List.mem_of_find?_eq_some hfind)).1
    · exact (sorted_bucket_thread_id hs t ht).1
  intro x hx y hy hbase
  rcases List.mem_append.mp hx with hx | hx <;>
    rcases List.mem_append.mp hy with hy | hy
  · rcases List.mem_map.mp hx with ⟨t, _, rfl⟩
    rcases List.mem_map.mp hy with ⟨u, _, rfl⟩
    have : t = u := hbase
    rw [this]
  · rcases List.mem_map.mp hx with ⟨t, htm, rfl⟩
    rcases houtTruthy y hy with ⟨tid, hk, hth⟩
    have h1 : truthy t.thread_id = false := hst t htm
    have : ({ base := t, thread := none } : OutTweet).base = t := rfl
    rw [this] at hbase
    rw [hbase, hth] at h1
    simp [truthy, hk] at h1
  · rcases List.mem_map.mp hy with ⟨u, hum, rfl⟩
    rcases houtTruthy x hx with ⟨tid, hk, hth⟩
    have h1 : truthy u.thread_id = false := hst u hum
    have hbase' : x.base = u := hbase
    rw [← hbase', hth] at h1
    simp [truthy, hk] at h1
  · rcases hchar x hx with ⟨tidx, sx, hkx, hsx, shx⟩
    rcases hchar y hy with ⟨tidy, sy, hky, hsy, shy⟩
    have htidx : x.base.thread_id = some tidx := by
      rcases shx with ⟨root, hfind, hxeq⟩ | ⟨_, t, ht, hxeq⟩
      · rw [hxeq]
        exact (sorted_bucket_thread_id hsx root (List.mem_of_find?_eq_some hfind)).1
      · rw [hxeq]
        exact (sorted_bucket_thread_id hsx t ht).1
    have htidy : y.base.thread_id = some tidy := by
      rcases shy with ⟨root, hfind, hyeq⟩ | ⟨_, t, ht, hyeq⟩
      · rw [hyeq]
        exact (sorted_bucket_thread_id hsy root (List.mem_of_find?_eq_some hfind)).1
      · rw [hyeq]
        exact (sorted_bucket_thread_id hsy t ht).1
    have htid : tidx = tidy := by
      rw [hbase, htidy] at htidx
      exact Option.some.inj htidx.symm
    subst htid
    have hss : sx = sy := by
      rw [hsx] at hsy
      exact Except.ok.inj hsy
    subst hss
    rcases shx with ⟨rootx, hfindx, hxeq⟩ | ⟨hfindx, tx, htx, hxeq⟩ <;>
      rcases shy with ⟨rooty, hfindy, hyeq⟩ | ⟨hfindy, ty, hty, hyeq⟩
    · have hrx : rootx = x.base := by rw [hxeq]
      have hry : rooty = y.base := by rw [hyeq]
      rw [hxeq, hyeq, hrx, hry, hbase]
    · rw [hfindx] at hfindy
      exact Option.noConfusion hfindy
    · rw [hfindy] at hfindx
      exact Option.noConfusion hfindx
    · have hrx : tx = x.base := by rw [hxeq]
      have hry : ty = y.base := by rw [hyeq]
      rw [hxeq, hyeq, hrx, hry, hbase]

/-- C5 amended: reconciliation is independent of the unit enumeration
order provided the unit multisets are fixed, any two records with the
same id are identical, and timestamps are parsable with distinct ids
carrying distinct instants.  (The counterexample shows order-dependence
as soon as two batch units disagree on one id.) -/
theorem c5_amended_determinism
    (bs₁ bs₂ : List (List Tweet)) (ths₁ ths₂ : List (String × List Tweet))
    (hb : bs₁.Perm bs₂) (hth : ths₁.Perm ths₂)
    (hdup : ∀ r ∈ streamOf bs₁ ths₁, ∀ r' ∈ streamOf bs₁ ths₁,
      r.id = r'.id → r = r')
    (hpar : ∀ r ∈ streamOf bs₁ ths₁, (parse_twitter_date r.created_at).isSome)
    (hdist : ∀ r ∈ streamOf bs₁ ths₁, ∀ r' ∈ streamOf bs₁ ths₁, r.id ≠ r'.id →
      parse_twitter_date r.created_at ≠ parse_twitter_date r'.created_at) :
    megaParse bs₁ ths₁ = megaParse bs₂ ths₂ := by
  have hsp := stream_perm hb hth
  have hVperm := values_perm hb hth hdup
  have hparV₁ : ∀ v ∈ valuesOf bs₁ ths₁, (dateKey v).isSome := fun v hv =>
    hpar v (values_subset_stream bs₁ ths₁ v hv)
  have hparV₂ : ∀ v ∈ valuesOf bs₂ ths₂, (dateKey v).isSome := fun v hv =>
    hpar v (hsp.symm.subset (values_subset_stream bs₂ ths₂ v hv))
  have hanti : ∀ x ∈ valuesOf bs₁ ths₁, ∀ y ∈ valuesOf bs₁ ths₁,
      leK (dateKey x) (dateKey y) = true → leK (dateKey y) (dateKey x) = true →
      x = y := by
    intro x hx y hy h1 h2
    have hxs := values_subset_stream bs₁ ths₁ x hx
    have hys := values_subset_stream bs₁ ths₁ y hy
    have hkeq : dateKey x = dateKey y :=
      leK_antisymm_some (hparV₁ x hx) (hparV₁ y hy) h1 h2
    by_cases hid : x.id = y.id
    · exact hdup x hxs y hys hid
    · exact absurd hkeq (hdist x hxs y hys hid)
  have hbp : ∀ tid : String,
      ((valuesOf bs₁ ths₁).filter (fun t => t.thread_id == some tid)).Perm
        ((valuesOf bs₂ ths₂).filter (fun t => t.thread_id == some tid)) :=
    fun _ => hVperm.filter _
  have hsort₁ : ∀ tid : String, ∃ s, sortE ltAsc
      ((valuesOf bs₁ ths₁).filter (fun t => t.thread_id == some tid)) = .ok s :=
    fun _ => sortE_ltAsc_total (fun x hx => hparV₁ x (List.mem_of_mem_filter hx))
  have hsort₂ : ∀ tid : String, ∃ s, sortE ltAsc
      ((valuesOf bs₂ ths₂).filter (fun t => t.thread_id == some tid)) = .ok s :=
    fun _ => sortE_ltAsc_total (fun x hx => hparV₂ x (List.mem_of_mem_filter hx))
  have hsort_eq : ∀ (tid : String) (s₁ s₂ : List Tweet),
      sortE ltAsc ((valuesOf bs₁ ths₁).filter
        (fun t => t.thread_id == some tid)) = .ok s₁ →
      sortE ltAsc ((valuesOf bs₂ ths₂).filter
        (fun t => t.thread_id == some tid)) = .ok s₂ →
      s₁ = s₂ := by
    intro tid s₁ s₂ h₁ h₂
    refine @sortE_eq_of_perm _ _ (fun a b => leK (dateKey a) (dateKey b) = true)
      (fun a b hab => pyLt_ok_true hab) (fun a b hab => pyLt_ok_false hab)
      (fun a b c h1 h2 => leK_trans h1 h2) _ _ _ _ (hbp tid) h₁ h₂ ?_
    intro x hx y hy
    exact hanti x (List.mem_of_mem_filter hx) y (List.mem_of_mem_filter hy)
  have hgtot₁ : ∀ p ∈ groupsOf (valuesOf bs₁ ths₁),
      ∃ b, processBucket p.1 p.2 = .ok b := by
    intro p hp
    rcases hsort₁ p.1 with ⟨s, hs⟩
    rw [← (groupsOf_bucket hp).2] at hs
    exact processBucket_total hs
  have hgtot₂ : ∀ p ∈ groupsOf (valuesOf bs₂ ths₂),
      ∃ b, processBucket p.1 p.2 = .ok b := by
    intro p hp
    rcases hsort₂ p.1 with ⟨s, hs⟩
    rw [← (groupsOf_bucket hp).2] at hs
    exact processBucket_total hs
  obtain ⟨bout₁, hf₁, hpg₁⟩ := processGroups_total_flatten _ hgtot₁
  obtain ⟨bout₂, hf₂, hpg₂⟩ := processGroups_total_flatten _ hgtot₂
  set F : String → List OutTweet := fun tid =>
    match processBucket tid
      ((valuesOf bs₁ ths₁).filter (fun t => t.thread_id == some tid)) with
    | .ok b => b
    | .error _ => [] with hF
  have hcross : ∀ (tid : String) (b : List OutTweet),
      processBucket tid ((valuesOf bs₂ ths₂).filter
        (fun t => t.thread_id == some tid)) = .ok b →
      processBucket tid ((valuesOf bs₁ ths₁).filter
        (fun t => t.thread_id == some tid)) = .ok b := by
    intro tid b h₂
    rcases hsort₁ tid with ⟨s₁, hs₁⟩
    rcases hsort₂ tid with ⟨s₂, hs₂⟩
    have hse := hsort_eq tid s₁ s₂ hs₁ hs₂
    subst hse
    rw [processBucket_congr hs₁ hs₂]
    exact h₂
  have hbout₁ : bout₁ = ((groupsOf (valuesOf bs₁ ths₁)).map Prod.fst).map F := by
    have h0 : bout₁ = (groupsOf (valuesOf bs₁ ths₁)).map (fun p => F p.1) := by
      refine forall₂_eq_map hf₁ ?_
      intro p b hp hr
      rw [(groupsOf_bucket hp).2] at hr
      rw [hF]
      simp only [hr]
    rw [h0, List.map_map]
    rfl
  have hbout₂ : bout₂ = ((groupsOf (valuesOf bs₂ ths₂)).map Prod.fst).map F := by
    have h0 : bout₂ = (groupsOf (valuesOf bs₂ ths₂)).map (fun p => F p.1) := by
      refine forall₂_eq_map hf₂ ?_
      intro p b hp hr
      rw [(groupsOf_bucket hp).2] at hr
      have hr' := hcross p.1 b hr
      rw [hF]
      simp only [hr']
    rw [h0, List.map_map]
    rfl
  have hkeys : ((groupsOf (valuesOf bs₁ ths₁)).map Prod.fst).Perm
      ((groupsOf (valuesOf bs₂ ths₂)).map Prod.fst) := by
    refine (List.perm_ext_iff_of_nodup (groupsOf_keys_nodup _)
      (groupsOf_keys_nodup _)).mpr ?_
    intro tid
    rw [groupsOf_keys_iff, groupsOf_keys_iff]
    constructor
    · rintro ⟨h1, t, ht, h2⟩
      exact ⟨h1, t, (values_mem_iff hb hth hdup t).mp ht, h2⟩
    · rintro ⟨h1, t, ht, h2⟩
      exact ⟨h1, t, (values_mem_iff hb hth hdup t).mpr ht, h2⟩
  have hboutperm : bout₁.flatten.Perm bout₂.flatten := by
    rw [hbout₁, hbout₂]
    exact perm_flatten (hkeys.map F)
  have hstperm : ((splitStandalone (valuesOf bs₁ ths₁)).1.map
      (fun t => (⟨t, none⟩ : OutTweet))).Perm
      ((splitStandalone (valuesOf bs₂ ths₂)).1.map
        (fun t => (⟨t, none⟩ : OutTweet))) := by
    rw [splitStandalone_fst, splitStandalone_fst]
    exact (hVperm.filter _).map _
  have hc0perm : (((splitStandalone (valuesOf bs₁ ths₁)).1.map
      (fun t => (⟨t, none⟩ : OutTweet))) ++ bout₁.flatten).Perm
      (((splitStandalone (valuesOf bs₂ ths₂)).1.map
        (fun t => (⟨t, none⟩ : OutTweet))) ++ bout₂.flatten) :=
    hstperm.append hboutperm
  have hbases₁ : ∀ x ∈ ((splitStandalone (valuesOf bs₁ ths₁)).1.map
      (fun t => (⟨t, none⟩ : OutTweet))) ++ bout₁.flatten,
      x.base ∈ valuesOf bs₁ ths₁ := by
    intro x hx
    rcases List.mem_append.mp hx with hx | hx
    · rcases List.mem_map.mp hx with ⟨t, ht, rfl⟩
      rw [splitStandalone_fst] at ht
      exact List.mem_of_mem_filter ht
    · rcases processGroups_elt_char hpg₁ x hx with ⟨tid, s, _, hs, hshape⟩
      rcases hshape with ⟨root, hfind, rfl⟩ | ⟨_, t, ht, rfl⟩
      · exact (sorted_bucket_thread_id hs root
          (List.mem_of_find?_eq_some hfind)).2
      · exact (sorted_bucket_thread_id hs t ht).2
  have hbases₂ : ∀ x ∈ ((splitStandalone (valuesOf bs₂ ths₂)).1.map
      (fun t => (⟨t, none⟩ : OutTweet))) ++ bout₂.flatten,
      x.base ∈ valuesOf bs₂ ths₂ := by
    intro x hx
    rcases List.mem_append.mp hx with hx | hx
    · rcases List.mem_map.mp hx with ⟨t, ht, rfl⟩
      rw [splitStandalone_fst] at ht
      exact List.mem_of_mem_filter ht
    · rcases processGroups_elt_char hpg₂ x hx with ⟨tid, s, _, hs, hshape⟩
      rcases hshape with ⟨root, hfind, rfl⟩ | ⟨_, t, ht, rfl⟩
      · exact (sorted_bucket_thread_id hs root
          (List.mem_of_find?_eq_some hfind)).2
      · exact (sorted_bucket_thread_id hs t ht).2
  rcases sortE_ltDesc_total
      (fun x hx => hparV₁ x.base (hbases₁ x hx)) with ⟨c₁, hc₁⟩
  rcases sortE_ltDesc_total
      (fun x hx => hparV₂ x.base (hbases₂ x hx)) with ⟨c₂, hc₂⟩
  have hceq : c₁ = c₂ := by
    refine @sortE_eq_of_perm _ _
      (fun a b : OutTweet => leK (outKey b) (outKey a) = true)
      (fun a b hab => pyLt_ok_true hab) (fun a b hab => pyLt_ok_false hab)
      (fun a b c h1 h2 => leK_trans h2 h1) _ _ _ _ hc0perm hc₁ hc₂ ?_
    intro x hx y hy h1 h2
    have hkx := hparV₁ x.base (hbases₁ x hx)
    have hky := hparV₁ y.base (hbases₁ y hy)
    have hkeq : outKey y = outKey x := leK_antisymm_some hky hkx h1 h2
    have hxs := values_subset_stream bs₁ ths₁ x.base (hbases₁ x hx)
    have hys := values_subset_stream bs₁ ths₁ y.base (hbases₁ y hy)
    have hbeq : x.base = y.base := by
      by_cases hid : x.base.id = y.base.id
      · exact hdup x.base hxs y.base hys hid
      · exact absurd hkeq.symm (hdist x.base hxs y.base hys hid)
    exact corpus0_base_inj hpg₁ x hx y hy hbeq
  have hm₁ : megaParse bs₁ ths₁ = .ok c₁ := by
    unfold megaParse
    dsimp only
    have hpg₁' : processGroups
        (splitStandalone (List.map Prod.snd (buildAllTweets bs₁ ths₁))).2 =
        .ok bout₁.flatten := hpg₁
    rw [hpg₁', exc_bind_ok]
    exact hc₁
  have hm₂ : megaParse bs₂ ths₂ = .ok c₂ := by
    unfold megaParse
    dsimp only
    have hpg₂' : processGroups
        (splitStandalone (List.map Prod.snd (buildAllTweets bs₂ ths₂))).2 =
        .ok bout₂.flatten := hpg₂
    rw [hpg₂', exc_bind_ok]
    exact hc₂
  rw [hm₁, hm₂, hceq]

/-- Witness for the amended C5 at a concrete input: two singleton batch
units with distinct ids and distinct parsable timestamps yield the same
corpus in either load order. -/
theorem c5_amended_determinism_witness :
    megaParse [[{ id := some "1",
                  created_at := some "Mon Jan 01 00:00:01 +0000 2024" }],
               [{ id := some "2",
                  created_at := some "Mon Jan 01 00:00:02 +0000 2024" }]] [] =
    megaParse [[{ id := some "2",
                  created_at := some "Mon Jan 01 00:00:02 +0000 2024" }],
               [{ id := some "1",
                  created_at := some "Mon Jan 01 00:00:01 +0000 2024" }]] [] :=
  c5_amended_determinism
    [[{ id := some "1", created_at := some "Mon Jan 01 00:00:01 +0000 2024" }],
     [{ id := some "2", created_at := some "Mon Jan 01 00:00:02 +0000 2024" }]]
    [[{ id := some "2", created_at := some "Mon Jan 01 00:00:02 +0000 2024" }],
     [{ id := some "1", created_at := some "Mon Jan 01 00:00:01 +0000 2024" }]]
    [] []
    (by decide) (by decide) (by decide) (by decide) (by decide)

end TwitterScrap
